import Mathlib

/-!
A shallow embedding of `humann2/tools/infer_taxonomy.py` together with
theorems about its behaviour.  Python machine floats are modelled as
rationals, Python dicts as association lists updated in place, and the
external `util` table helper (delimiters, row-key parsing and joining,
row-key sorting, the unmapped sentinel) is modelled from the spec where
the doc comments say so.
-/

namespace InferTax

/-! ### Constants (source lines 31-46) -/

def c_root : String := "Root"

def c_levels : List String :=
  [c_root, "Kingdom", "Phylum", "Class", "Order", "Family", "Genus"]

def c_tmode : String := "totals"

def c_umode : String := "unclassified"

def c_smode : String := "stratified"

def c_tol_header : String := "# TOL"

def c_lca_header : String := "# LCA"

def c_unclassified : String := "unclassified"

/-- Modelled from the spec: the designated "unmapped" sentinel feature id
(`util.c_unmapped`) of the external table utility. -/
def c_unmapped : String := "UNMAPPED"

/-- Modelled from the spec: the delimiter separating the parts of a multi-part
stratum token (`util.c_taxon_delim`). -/
def c_taxon_delim : String := "."

/-! ### Python dicts as association lists -/

/-- First-match lookup in an association list; models Python `dict` lookup /
`dict.get`. -/
def dlookup {K V : Type} [DecidableEq K] : List (K × V) → K → Option V
  | [], _ => none
  | p :: rest, q => if q = p.1 then some p.2 else dlookup rest q

/-- Python `dict` insert-or-update: the value under an existing key is
replaced in place; a fresh key is appended at the end. -/
def dupdate {K V : Type} [DecidableEq K] (d : List (K × V)) (k : K) (f : Option V → V) :
    List (K × V) :=
  match dlookup d k with
  | some v => d.map (fun p => if p.1 = k then (k, f (some v)) else p)
  | none => d ++ [(k, f none)]

/-- Python `d[k] = v`. -/
def dset {K V : Type} [DecidableEq K] (d : List (K × V)) (k : K) (v : V) : List (K × V) :=
  dupdate d k (fun _ => v)

theorem dlookup_nil {K V : Type} [DecidableEq K] (q : K) :
    dlookup ([] : List (K × V)) q = none := rfl

theorem dlookup_cons {K V : Type} [DecidableEq K] (p : K × V) (rest : List (K × V)) (q : K) :
    dlookup (p :: rest) q = if q = p.1 then some p.2 else dlookup rest q := rfl

theorem dlookup_append {K V : Type} [DecidableEq K] (d₁ d₂ : List (K × V)) (q : K) :
    dlookup (d₁ ++ d₂) q =
      match dlookup d₁ q with
      | some v => some v
      | none => dlookup d₂ q := by
  induction d₁ with
  | nil => simp [dlookup]
  | cons p rest ih =>
      by_cases h : q = p.1 <;> simp [dlookup, h, ih]

theorem dlookup_eq_none_iff {K V : Type} [DecidableEq K] (d : List (K × V)) (q : K) :
    dlookup d q = none ↔ q ∉ d.map Prod.fst := by
  induction d with
  | nil => simp [dlookup]
  | cons p rest ih =>
      by_cases h : q = p.1 <;> simp [dlookup, h, ih]

theorem dlookup_mem_pair {K V : Type} [DecidableEq K] {d : List (K × V)} {q : K} {v : V}
    (h : dlookup d q = some v) : (q, v) ∈ d := by
  induction d with
  | nil => simp [dlookup] at h
  | cons p rest ih =>
      rw [dlookup_cons] at h
      by_cases hq : q = p.1
      · rw [if_pos hq] at h
        injection h with h
        subst h
        subst hq
        simp
      · rw [if_neg hq] at h
        exact List.mem_cons_of_mem _ (ih h)

theorem dlookup_map_value {K V W : Type} [DecidableEq K] (d : List (K × V)) (g : V → W) (q : K) :
    dlookup (d.map (fun p => (p.1, g p.2))) q = (dlookup d q).map g := by
  induction d with
  | nil => simp [dlookup]
  | cons p rest ih =>
      by_cases h : q = p.1 <;> simp [dlookup, h, ih]

theorem map_replace_of_not_mem {K V : Type} [DecidableEq K] {d : List (K × V)} {k : K}
    (x : K × V) (h : k ∉ d.map Prod.fst) :
    d.map (fun p => if p.1 = k then x else p) = d := by
  induction d with
  | nil => simp
  | cons p rest ih =>
      simp only [List.map_cons, List.mem_cons] at h ⊢
      push_neg at h
      rw [if_neg (by exact fun hc => h.1 hc.symm), ih h.2]

theorem dlookup_map_replace_self {K V : Type} [DecidableEq K] {d : List (K × V)} {k : K}
    {v : V} (x : K × V) (hx : x.1 = k) (h : dlookup d k = some v) :
    dlookup (d.map (fun p => if p.1 = k then x else p)) k = some x.2 := by
  induction d with
  | nil => simp [dlookup] at h
  | cons p rest ih =>
      rw [dlookup_cons] at h
      by_cases hk : k = p.1
      · simp only [List.map_cons, hk, if_pos rfl, dlookup_cons]
        simp [← hk, hx]
      · rw [if_neg hk] at h
        simp only [List.map_cons]
        rw [if_neg (by exact fun hc => hk hc.symm)]
        rw [dlookup_cons, if_neg hk]
        exact ih h

theorem dlookup_map_replace_ne {K V : Type} [DecidableEq K] (d : List (K × V)) (k : K)
    (x : K × V) (hx : x.1 = k) {q : K} (hq : q ≠ k) :
    dlookup (d.map (fun p => if p.1 = k then x else p)) q = dlookup d q := by
  induction d with
  | nil => simp [dlookup]
  | cons p rest ih =>
      by_cases hk : p.1 = k
      · simp only [List.map_cons, if_pos hk]
        rw [dlookup_cons, dlookup_cons]
        rw [if_neg (by rw [hx]; exact hq), if_neg (by rw [hk]; exact hq)]
        exact ih
      · simp only [List.map_cons, if_neg hk]
        rw [dlookup_cons, dlookup_cons]
        by_cases hqp : q = p.1
        · simp [hqp]
        · rw [if_neg hqp, if_neg hqp]
          exact ih

theorem dlookup_dupdate_self {K V : Type} [DecidableEq K] (d : List (K × V)) (k : K)
    (f : Option V → V) : dlookup (dupdate d k f) k = some (f (dlookup d k)) := by
  unfold dupdate
  cases h : dlookup d k with
  | none =>
      rw [dlookup_append, h]
      simp [dlookup]
  | some v => exact dlookup_map_replace_self (k, f (some v)) rfl h

theorem dlookup_dupdate_ne {K V : Type} [DecidableEq K] (d : List (K × V)) (k : K)
    (f : Option V → V) {q : K} (hq : q ≠ k) : dlookup (dupdate d k f) q = dlookup d q := by
  unfold dupdate
  cases h : dlookup d k with
  | none =>
      rw [dlookup_append]
      cases h2 : dlookup d q with
      | none => simp [dlookup, hq]
      | some v => rfl
  | some v => exact dlookup_map_replace_ne d k (k, f (some v)) rfl hq

/-! ### Character-list string helpers (Python substring and split operations) -/

/-- Bool test that `p` is a leading segment of `l`. -/
def leadsWith : List Char → List Char → Bool
  | [], _ => true
  | _ :: _, [] => false
  | a :: as, b :: bs => if a = b then leadsWith as bs else false

/-- Bool test that `p` occurs contiguously inside the second list. -/
def hasSubList (p : List Char) : List Char → Bool
  | [] => leadsWith p []
  | c :: t => leadsWith p (c :: t) || hasSubList p t

/-- Python `pat in s` (substring containment). -/
def strHasSub (s pat : String) : Bool := hasSubList pat.toList s.toList

/-- The characters before the first occurrence of the (nonempty) delimiter
`d`; models Python `s.split(d)[0]`. -/
def takeBefore (d : List Char) : List Char → List Char
  | [] => []
  | c :: t => if leadsWith d (c :: t) then [] else c :: takeBefore d t

/-- Python `s.split(d)[0]` for a nonempty delimiter `d`. -/
def splitHead (s d : String) : String := ⟨takeBefore d.toList s.toList⟩

/-- Python `s.replace("g__", "")`: removes every occurrence of `g__`,
scanning left to right. -/
def eraseGPat : List Char → List Char
  | 'g' :: '_' :: '_' :: t => eraseGPat t
  | c :: t => c :: eraseGPat t
  | [] => []

/-- Python `s.replace("g__", "")` on strings. -/
def strEraseG (s : String) : String := ⟨eraseGPat s.toList⟩

/-- Python `rank.lower()[0]` as a one-character string (the source never
evaluates it at an empty rank: the target rank is one of `c_levels`). -/
def rankInitial (s : String) : String := ⟨(s.toList.map Char.toLower).take 1⟩

/-! ### Row keys -/

/-- Modelled from the spec: a feature row key is a composite identifier with
three logical parts - base feature id, optional human-readable name and
optional taxonomic stratum - joined and split by the external table
utility's delimiters.  It is modelled structurally by those parts. -/
structure RowKey where
  feature : String
  name : Option String
  stratum : Option String
deriving DecidableEq, Repr

/-- Modelled from the spec: `util.fsplit` parses a composite row key into
(feature, name, stratum). -/
def fsplit (k : RowKey) : String × Option String × Option String :=
  (k.feature, k.name, k.stratum)

/-- Modelled from the spec: `util.fjoin` rebuilds a composite row key from
(feature, name, stratum). -/
def fjoin (feature : String) (name stratum : Option String) : RowKey :=
  ⟨feature, name, stratum⟩

/-- Modelled from the spec: splitting a row key string on the stratification
delimiter and then on the name delimiter (source lines 116-117) leaves its
base feature id. -/
def featureOf (k : RowKey) : String := k.feature

/-! ### The taxonomy tree (source lines 52-75) -/

structure Taxon where
  name : String
  rank : String
  parent_name : Option String
deriving DecidableEq, Repr

structure TreeOfLife where
  nodes : List (String × Taxon)
deriving DecidableEq, Repr

/-- `TreeOfLife.__init__`: the tree starts with the root node. -/
def TreeOfLife.init : TreeOfLife := ⟨[(c_root, ⟨c_root, c_root, none⟩)]⟩

/-- Python `name in self.nodes` / `self.nodes[name]`. -/
def TreeOfLife.find? (tol : TreeOfLife) (name : String) : Option Taxon :=
  dlookup tol.nodes name

/-- `TreeOfLife.attach`: inserts a taxon under its name if unseen; a
duplicate definition is ignored (the source additionally logs a warning). -/
def TreeOfLife.attach (tol : TreeOfLife) (node : Taxon) : TreeOfLife :=
  if (tol.find? node.name).isSome then tol else ⟨tol.nodes ++ [(node.name, node)]⟩

/-- The body of `get_lineage`'s `while` loop, made total with a fuel
parameter: `none` means the fuel ran out before the loop exited (the source
loop diverges on a cyclic parent chain). -/
def lineage_aux (tol : TreeOfLife) (fuel : Nat) (oname : Option String) :
    Option (List (String × String)) :=
  match oname with
  | none => some []
  | some n =>
    match tol.find? n with
    | none => some []
    | some node =>
      if n = c_root then some []
      else
        match fuel with
        | 0 => none
        | fuel' + 1 =>
          (lineage_aux tol fuel' node.parent_name).map (fun l => (node.rank, node.name) :: l)

/-- The loop variables visited by `get_lineage`'s `while` loop (truncated at
`fuel` steps). -/
def chain_aux (tol : TreeOfLife) (fuel : Nat) (oname : Option String) : List String :=
  match oname with
  | none => []
  | some n =>
    match tol.find? n with
    | none => []
    | some node =>
      if n = c_root then []
      else
        match fuel with
        | 0 => []
        | fuel' + 1 => n :: chain_aux tol fuel' node.parent_name

/-- Fuel sufficient for any acyclic walk: one more than the number of nodes. -/
def TreeOfLife.fuelBound (tol : TreeOfLife) : Nat := tol.nodes.length + 1

/-- `TreeOfLife.get_lineage` (source lines 68-75): walk parent links from
`name` collecting `(rank, name)` pairs, then append the root pair.  The fuel
only runs out when the parent chain is cyclic, in which case the source
diverges and the walk's partial result is discarded here. -/
def TreeOfLife.get_lineage (tol : TreeOfLife) (name : String) : List (String × String) :=
  ((lineage_aux tol tol.fuelBound (some name)).getD []) ++ [(c_root, c_root)]

/-- The names visited by `get_lineage`'s loop at the canonical fuel. -/
def chainOf (tol : TreeOfLife) (name : String) : List String :=
  chain_aux tol tol.fuelBound (some name)

/-! ### The taxonomy map builder (source lines 115-159) -/

/-- The restricted UniRef id set (source lines 116-118): base features of the
table's row keys that contain "UniRef".  The source builds a set; only
membership is used, so a list models it. -/
def unirefsOf (features : List RowKey) : List String :=
  (features.map featureOf).filter (fun k => strHasSub k "UniRef")

/-- The first lineage entry whose rank equals the target rank, rendered as
`rank_initial__name` (the `for`/`break` loops of source lines 142-145 and
155-158). -/
def firstAtRank (target : String) (lineage : List (String × String)) : Option String :=
  (lineage.find? (fun p => decide (p.1 = target))).map
    (fun p => rankInitial p.1 ++ "__" ++ p.2)

/-- The loop state of `build_taxmap`'s file pass. -/
structure BTState where
  tol : TreeOfLife
  taxmap : List (String × String)
  tol_mode : Bool
  lca_mode : Bool
deriving DecidableEq, Repr

/-- One row of the reference data file (source lines 126-145): header rows
switch the parsing mode; a structurally malformed row (wrong column count,
or an empty row) is a fatal unpacking failure, modelled as `none`. -/
def btStep (target : String) (unirefs : List String) (st : BTState) (row : List String) :
    Option BTState :=
  match row with
  | [] => none
  | r0 :: _ =>
    if r0 = c_tol_header then some { st with tol_mode := true }
    else if r0 = c_lca_header then some { st with tol_mode := false, lca_mode := true }
    else if st.tol_mode then
      match row with
      | [name, rank, parent_name] =>
        some { st with tol := st.tol.attach ⟨name, rank, some parent_name⟩ }
      | _ => none
    else if st.lca_mode then
      match row with
      | [uni, lca] =>
        if uni ∈ unirefs then
          match firstAtRank target (st.tol.get_lineage lca) with
          | some v => some { st with taxmap := dset st.taxmap uni v }
          | none => some st
        else some st
      | _ => none
    else some st

/-- The streaming pass over the reference data file. -/
def btFold (target : String) (unirefs : List String) :
    BTState → List (List String) → Option BTState
  | st, [] => some st
  | st, row :: rest =>
    match btStep target unirefs st row with
    | some st' => btFold target unirefs st' rest
    | none => none

/-- The per-feature genus-stratum augmentation (source lines 147-158). -/
def genusStep (tol : TreeOfLife) (target : String) (tm : List (String × String))
    (k : RowKey) : List (String × String) :=
  match fsplit k with
  | (_, _, none) => tm
  | (_, _, some stratum) =>
    if strHasSub stratum "g__" then
      let genus := splitHead stratum c_taxon_delim
      if target = "Genus" then dset tm stratum genus
      else
        match firstAtRank target (tol.get_lineage (strEraseG genus)) with
        | some v => dset tm stratum v
        | none => tm
    else tm

/-- The augmentation pass over all feature row keys. -/
def genusFold (tol : TreeOfLife) (target : String) (tm : List (String × String))
    (features : List RowKey) : List (String × String) :=
  features.foldl (genusStep tol target) tm

/-- `build_taxmap` (source lines 115-159).  The file is a list of
tab-delimited rows; `none` models the fatal unpacking failure on a
structurally malformed row. -/
def build_taxmap (features : List RowKey) (target : String)
    (datafile : List (List String)) : Option (List (String × String)) :=
  match btFold target (unirefsOf features) ⟨TreeOfLife.init, [], false, false⟩ datafile with
  | some st => some (genusFold st.tol target st.taxmap features)
  | none => none

/-! ### The feature reconnector (source lines 161-168) -/

/-- `tax_connect` (source lines 161-168). -/
def tax_connect (k : RowKey) (tm : List (String × String)) : RowKey :=
  match fsplit k with
  | (feature, name, stratum) =>
    let stratum2 :=
      match stratum with
      | none => (dlookup tm feature).getD c_unclassified
      | some s =>
        if s = c_unclassified then (dlookup tm feature).getD c_unclassified
        else (dlookup tm s).getD c_unclassified
    fjoin feature name (some stratum2)

/-! ### The map refinement (source lines 181-186) -/

/-- The label usage counts (source lines 181-183). -/
def refineCounts (tm : List (String × String)) : List (String × Nat) :=
  tm.foldl (fun c p => dupdate c p.2 (fun o => o.getD 0 + 1)) []

/-- `total = float(sum(counts.values()))` (source line 184). -/
def refineTotal (tm : List (String × String)) : ℚ :=
  (((refineCounts tm).map Prod.snd).sum : ℕ)

/-- `count = {k: v/total for k, v in counts.items()}` (source line 185). -/
def refineFreq (tm : List (String × String)) : List (String × ℚ) :=
  (refineCounts tm).map (fun p => (p.1, (p.2 : ℚ) / refineTotal tm))

/-- The threshold filter (source line 186).  The `none` branch is
unreachable: every value of the map has an entry in the frequency dict. -/
def refineTaxmap (tm : List (String × String)) (threshold : ℚ) : List (String × String) :=
  tm.filter (fun p =>
    match dlookup (refineFreq tm) p.2 with
    | some q => decide (threshold ≤ q)
    | none => false)

/-! ### The table reindexer (source lines 190-224) -/

/-- Python `index.setdefault(key, []).append(i)`. -/
def madd (d : List (RowKey × List Nat)) (k : RowKey) (i : Nat) : List (RowKey × List Nat) :=
  dupdate d k (fun o => o.getD [] ++ [i])

/-- One iteration of the reindexing loop (source lines 191-210), at row
index `p.1` with row key `p.2`. -/
def indexStep (mode : String) (tm : List (String × String)) (d : List (RowKey × List Nat))
    (p : Nat × RowKey) : List (RowKey × List Nat) :=
  match fsplit p.2 with
  | (feature, name, stratum) =>
    let i := p.1
    let rowhead := p.2
    let new_rowhead := tax_connect rowhead tm
    let d1 := if feature = c_unmapped then madd d rowhead i else d
    if stratum = none ∧ mode ≠ c_umode then
      let d2 := madd d1 rowhead i
      if mode = c_tmode then madd d2 new_rowhead i else d2
    else if stratum = some c_unclassified ∧ mode = c_umode then
      madd (madd d1 (fjoin feature name none) i) new_rowhead i
    else if stratum ≠ none ∧ mode = c_smode then
      madd d1 new_rowhead i
    else d1

/-- The reindexing pass: a multimap from output row key to the list of
contributing source row indices (source lines 190-210). -/
def buildIndex (mode : String) (tm : List (String × String)) (rowheads : List RowKey) :
    List (RowKey × List Nat) :=
  rowheads.enum.foldl (indexStep mode tm) []

/-- The elementwise float sum of the contributing source rows (source lines
218-221); values are modelled as rationals, so `map(float, ...)` is the
identity. -/
def sumRows (data : List (List ℚ)) (ncols : Nat) (is : List Nat) : List ℚ :=
  is.foldl (fun acc i => List.zipWith (fun a b => a + b) acc (data.getD i []))
    (List.replicate ncols (0 : ℚ))

/-- The numeric vector of the rebuilt table's row with key `q`, if that key
is emitted (source lines 213-224).  `util.fsort` only reorders the output
rows (modelled from the spec: a deterministic ordering), so the per-key
content is captured by the multimap lookup. -/
def outputVec (mode : String) (tm : List (String × String)) (rowheads : List RowKey)
    (data : List (List ℚ)) (ncols : Nat) (q : RowKey) : Option (List ℚ) :=
  (dlookup (buildIndex mode tm rowheads) q).map (sumRows data ncols)

/-! ### The reporter (source lines 228-242) -/

/-- The reporter's counters over the rewritten row keys (source lines
229-235), as `(success, total)`. -/
def reportCounts (rowheads : List RowKey) : Nat × Nat :=
  rowheads.foldl
    (fun st rowhead =>
      match fsplit rowhead with
      | (_, _, none) => st
      | (_, _, some stratum) =>
        (st.1 + (if stratum ≠ c_unclassified then 1 else 0), st.2 + 1))
    (0, 0)

/-- The summary percentage (source lines 236-242): `none` models the
`ZeroDivisionError` raised when no output row is stratified; the display
rounding to one decimal place is not modelled. -/
def summaryPercent (rowheads : List RowKey) : Option ℚ :=
  let p := reportCounts rowheads
  if p.2 = 0 then none else some (100 * (p.1 : ℚ) / (p.2 : ℚ))

/-! ### Further dictionary lemmas -/

theorem map_fst_map_replace {K V : Type} [DecidableEq K] (d : List (K × V)) (k : K)
    (x : K × V) (hx : x.1 = k) :
    (d.map (fun p => if p.1 = k then x else p)).map Prod.fst = d.map Prod.fst := by
  induction d with
  | nil => simp
  | cons p rest ih =>
      by_cases hp : p.1 = k
      · simp only [List.map_cons, if_pos hp, ih]
        rw [hx, hp]
      · simp only [List.map_cons, if_neg hp, ih]

theorem dupdate_map_fst_of_some {K V : Type} [DecidableEq K] {d : List (K × V)} {k : K}
    (f : Option V → V) (h : (dlookup d k).isSome) :
    (dupdate d k f).map Prod.fst = d.map Prod.fst := by
  unfold dupdate
  cases h2 : dlookup d k with
  | none => rw [h2] at h; simp at h
  | some v => exact map_fst_map_replace d k _ rfl

theorem dupdate_map_fst_of_none {K V : Type} [DecidableEq K] {d : List (K × V)} {k : K}
    (f : Option V → V) (h : dlookup d k = none) :
    (dupdate d k f).map Prod.fst = d.map Prod.fst ++ [k] := by
  unfold dupdate
  rw [h]
  simp

theorem dupdate_keys_nodup {K V : Type} [DecidableEq K] {d : List (K × V)} {k : K}
    (f : Option V → V) (hnd : (d.map Prod.fst).Nodup) :
    ((dupdate d k f).map Prod.fst).Nodup := by
  cases h : dlookup d k with
  | none =>
      rw [dupdate_map_fst_of_none f h]
      rw [List.nodup_append]
      refine ⟨hnd, List.nodup_singleton k, ?_⟩
      intro a ha hb
      simp at hb
      subst hb
      exact (dlookup_eq_none_iff d a).mp h ha
  | some v =>
      rw [dupdate_map_fst_of_some f (by rw [h]; rfl)]
      exact hnd

theorem sum_map_replace_succ {K : Type} [DecidableEq K] {d : List (K × ℕ)} {k : K} {v : ℕ}
    (hnd : (d.map Prod.fst).Nodup) (h : dlookup d k = some v) :
    ((d.map (fun p => if p.1 = k then (k, v + 1) else p)).map Prod.snd).sum
      = (d.map Prod.snd).sum + 1 := by
  induction d with
  | nil => simp [dlookup] at h
  | cons p rest ih =>
      rw [dlookup_cons] at h
      simp only [List.map_cons, List.nodup_cons] at hnd
      simp only [List.map_cons, List.sum_cons]
      by_cases hp : p.1 = k
      · rw [if_pos hp.symm] at h
        injection h with h
        have hrest : k ∉ rest.map Prod.fst := by rw [← hp]; exact hnd.1
        rw [if_pos hp, map_replace_of_not_mem _ hrest]
        simp only [List.map_cons, List.sum_cons]
        omega
      · rw [if_neg (fun hc => hp hc.symm)] at h
        rw [if_neg hp]
        simp only [List.map_cons, List.sum_cons, ih hnd.2 h]
        omega

theorem dupdate_count_sum {K : Type} [DecidableEq K] (d : List (K × ℕ)) (k : K)
    (hnd : (d.map Prod.fst).Nodup) :
    ((dupdate d k (fun o => o.getD 0 + 1)).map Prod.snd).sum = (d.map Prod.snd).sum + 1 := by
  unfold dupdate
  cases h : dlookup d k with
  | none => simp
  | some v => exact sum_map_replace_succ hnd h

/-! ### The counts fold of the refinement step -/

/-- The accumulator form of `refineCounts`. -/
def countsFold (c : List (String × Nat)) (tm : List (String × String)) :
    List (String × Nat) :=
  tm.foldl (fun c p => dupdate c p.2 (fun o => o.getD 0 + 1)) c

theorem refineCounts_eq_countsFold (tm : List (String × String)) :
    refineCounts tm = countsFold [] tm := rfl

theorem countsFold_keys_nodup (tm : List (String × String)) (c : List (String × Nat))
    (hnd : (c.map Prod.fst).Nodup) : ((countsFold c tm).map Prod.fst).Nodup := by
  induction tm generalizing c with
  | nil => exact hnd
  | cons p rest ih => exact ih _ (dupdate_keys_nodup _ hnd)

theorem countsFold_sum (tm : List (String × String)) (c : List (String × Nat))
    (hnd : (c.map Prod.fst).Nodup) :
    ((countsFold c tm).map Prod.snd).sum = (c.map Prod.snd).sum + tm.length := by
  induction tm generalizing c with
  | nil => simp [countsFold]
  | cons p rest ih =>
      have h1 := ih (dupdate c p.2 (fun o => o.getD 0 + 1)) (dupdate_keys_nodup _ hnd)
      show ((countsFold (dupdate c p.2 (fun o => o.getD 0 + 1)) rest).map Prod.snd).sum = _
      rw [h1, dupdate_count_sum c p.2 hnd]
      simp only [List.length_cons]
      omega

theorem countsFold_lookup (tm : List (String × String)) (c : List (String × Nat))
    (v : String) (h : v ∈ tm.map Prod.snd ∨ (dlookup c v).isSome) :
    dlookup (countsFold c tm) v = some ((dlookup c v).getD 0 + (tm.map Prod.snd).count v) := by
  induction tm generalizing c with
  | nil =>
      rcases h with h | h
      · simp at h
      · cases h2 : dlookup c v with
        | none => rw [h2] at h; simp at h
        | some x => simp [countsFold, h2, List.count_nil]
  | cons p rest ih =>
      show dlookup (countsFold (dupdate c p.2 (fun o => o.getD 0 + 1)) rest) v = _
      by_cases hv : v = p.2
      · have hsome : (dlookup (dupdate c p.2 (fun o => o.getD 0 + 1)) v).isSome := by
          rw [hv, dlookup_dupdate_self]
          rfl
        rw [ih _ (Or.inr hsome)]
        rw [hv, dlookup_dupdate_self]
        simp only [List.map_cons, List.count_cons, Option.getD_some, beq_self_eq_true,
          if_true]
        congr 1
        omega
      · have hne : dlookup (dupdate c p.2 (fun o => o.getD 0 + 1)) v = dlookup c v :=
          dlookup_dupdate_ne c p.2 _ hv
        have hmem : v ∈ rest.map Prod.snd ∨ (dlookup (dupdate c p.2 (fun o => o.getD 0 + 1)) v).isSome := by
          rcases h with h | h
          · simp only [List.map_cons, List.mem_cons] at h
            rcases h with h | h
            · exact absurd h hv
            · exact Or.inl h
          · rw [hne]; exact Or.inr h
        rw [ih _ hmem, hne]
        simp only [List.map_cons, List.count_cons]
        have hb : (p.2 == v) = false := beq_eq_false_iff_ne.mpr (fun hc => hv hc.symm)
        rw [hb]
        simp

/-! ### Facts about the refinement step -/

/-- The filter predicate of source line 186, as a function of the label. -/
def refinePred (tm : List (String × String)) (threshold : ℚ) (n : String) : Bool :=
  match dlookup (refineFreq tm) n with
  | some q => decide (threshold ≤ q)
  | none => false

theorem refineTaxmap_eq (tm : List (String × String)) (threshold : ℚ) :
    refineTaxmap tm threshold = tm.filter (fun p => refinePred tm threshold p.2) := rfl

theorem map_snd_filter_snd {A B : Type} (pb : B → Bool) (l : List (A × B)) :
    (l.filter (fun p => pb p.2)).map Prod.snd = (l.map Prod.snd).filter pb := by
  induction l with
  | nil => rfl
  | cons p rest ih =>
      by_cases h : pb p.2 <;> simp [List.filter_cons, h, ih]

theorem refineTotal_eq_length (tm : List (String × String)) :
    refineTotal tm = (tm.length : ℚ) := by
  unfold refineTotal
  rw [refineCounts_eq_countsFold, countsFold_sum tm [] (by simp)]
  simp

theorem refineFreq_lookup_mem (tm : List (String × String)) {p : String × String}
    (hp : p ∈ tm) :
    dlookup (refineFreq tm) p.2
      = some (((tm.map Prod.snd).count p.2 : ℚ) / refineTotal tm) := by
  have hmem : p.2 ∈ tm.map Prod.snd := List.mem_map_of_mem _ hp
  have h1 : dlookup (refineFreq tm) p.2
      = (dlookup (refineCounts tm) p.2).map (fun x : ℕ => (x : ℚ) / refineTotal tm) :=
    dlookup_map_value (refineCounts tm) (fun x : ℕ => (x : ℚ) / refineTotal tm) p.2
  rw [h1, refineCounts_eq_countsFold, countsFold_lookup tm [] p.2 (Or.inl hmem)]
  simp [dlookup]

/-- C7 auxiliary: a surviving entry's predicate stays true after filtering. -/
theorem refinePred_stable (tm : List (String × String)) (threshold : ℚ)
    {p : String × String} (hp : p ∈ refineTaxmap tm threshold) :
    refinePred (refineTaxmap tm threshold) threshold p.2 = true := by
  rw [refineTaxmap_eq] at hp
  obtain ⟨hptm, hpred⟩ := List.mem_filter.mp hp
  have hpred' := hpred
  unfold refinePred at hpred'
  rw [refineFreq_lookup_mem tm hptm] at hpred'
  simp only [decide_eq_true_eq] at hpred'
  -- hpred' : threshold ≤ count / total
  unfold refinePred
  rw [refineFreq_lookup_mem (refineTaxmap tm threshold) hp]
  simp only [decide_eq_true_eq]
  have hcount : ((refineTaxmap tm threshold).map Prod.snd).count p.2
      = (tm.map Prod.snd).count p.2 := by
    rw [refineTaxmap_eq, map_snd_filter_snd]
    exact List.count_filter hpred
  rw [hcount, refineTotal_eq_length]
  rw [refineTotal_eq_length] at hpred'
  have hlen : (refineTaxmap tm threshold).length ≤ tm.length := by
    rw [refineTaxmap_eq]
    exact List.length_filter_le _ tm
  have hpos : 0 < ((refineTaxmap tm threshold).length : ℚ) := by
    have : 0 < (refineTaxmap tm threshold).length := List.length_pos.mpr (List.ne_nil_of_mem hp)
    exact_mod_cast this
  refine le_trans hpred' ?_
  exact div_le_div_of_nonneg_left (by positivity) hpos (by exact_mod_cast hlen)

/-- C7: the threshold refinement of the taxmap (source lines 181-186) is
idempotent: reapplying the same threshold to the already-filtered map
removes no further entries. -/
theorem refine_idempotent (tm : List (String × String)) (threshold : ℚ) :
    refineTaxmap (refineTaxmap tm threshold) threshold = refineTaxmap tm threshold := by
  rw [refineTaxmap_eq (refineTaxmap tm threshold) threshold]
  apply List.filter_eq_self.mpr
  intro p hp
  exact refinePred_stable tm threshold hp

/-- C10: the map refinement never divides by zero: the divisor equals the
number of map entries (so it is positive whenever the map is nonempty), and
on the empty map the counts dict, the frequency dict and the refined map are
all empty - no per-label division is executed. -/
theorem refine_zero_safe (tm : List (String × String)) (threshold : ℚ) :
    refineTotal tm = (tm.length : ℚ)
    ∧ (tm = [] ∨ 0 < refineTotal tm)
    ∧ refineCounts ([] : List (String × String)) = []
    ∧ refineFreq ([] : List (String × String)) = []
    ∧ refineTaxmap [] threshold = [] := by
  refine ⟨refineTotal_eq_length tm, ?_, rfl, rfl, rfl⟩
  cases tm with
  | nil => exact Or.inl rfl
  | cons p rest =>
      right
      rw [refineTotal_eq_length]
      have : 0 < (p :: rest).length := Nat.succ_pos _
      exact_mod_cast this

/-! ### C8: the feature reconnector -/

/-- C8: `tax_connect` is a total (pure) function of the row key and the map:
with stratum absent or equal to "unclassified" it looks up the bare feature,
otherwise the stratum token; a missing entry yields the literal
"unclassified"; the feature and name are preserved and the result is always
stratified - no error is raised for unresolvable ids. -/
theorem tax_connect_cases (f : String) (nm : Option String) (s : String)
    (tm : List (String × String)) (hs : s ≠ c_unclassified) :
    tax_connect ⟨f, nm, none⟩ tm = ⟨f, nm, some ((dlookup tm f).getD c_unclassified)⟩
    ∧ tax_connect ⟨f, nm, some c_unclassified⟩ tm
        = ⟨f, nm, some ((dlookup tm f).getD c_unclassified)⟩
    ∧ tax_connect ⟨f, nm, some s⟩ tm = ⟨f, nm, some ((dlookup tm s).getD c_unclassified)⟩
    ∧ (dlookup tm f = none → tax_connect ⟨f, nm, none⟩ tm = ⟨f, nm, some c_unclassified⟩)
    ∧ (dlookup tm s = none → tax_connect ⟨f, nm, some s⟩ tm = ⟨f, nm, some c_unclassified⟩)
    ∧ (∀ k : RowKey, (tax_connect k tm).feature = k.feature
        ∧ (tax_connect k tm).name = k.name ∧ (tax_connect k tm).stratum ≠ none) := by
  refine ⟨rfl, by simp [tax_connect, fsplit, fjoin], by simp [tax_connect, fsplit, fjoin, hs],
    ?_, ?_, ?_⟩
  · intro h
    simp [tax_connect, fsplit, fjoin, h]
  · intro h
    simp [tax_connect, fsplit, fjoin, hs, h]
  · intro k
    rcases k with ⟨kf, kn, ks⟩
    cases ks with
    | none => simp [tax_connect, fsplit, fjoin]
    | some s' =>
        by_cases hs' : s' = c_unclassified <;> simp [tax_connect, fsplit, fjoin, hs']

/-- Witness for C8 at concrete inputs. -/
theorem tax_connect_cases_witness :
    ("g__X" : String) ≠ c_unclassified
    ∧ tax_connect ⟨"U", some "n", some "g__X"⟩ [("g__X", "f__F")]
        = ⟨"U", some "n", some ((dlookup [("g__X", "f__F")] "g__X").getD c_unclassified)⟩
    ∧ tax_connect ⟨"U", some "n", none⟩ [("g__X", "f__F")]
        = ⟨"U", some "n", some ((dlookup [("g__X", "f__F")] "U").getD c_unclassified)⟩ :=
  ⟨by decide,
    (tax_connect_cases "U" (some "n") "g__X" [("g__X", "f__F")] (by decide)).2.2.1,
    (tax_connect_cases "U" (some "n") "g__X" [("g__X", "f__F")] (by decide)).1⟩

/-! ### C9: the reporter -/

/-- The stratified rows of a row-key list. -/
def stratRows (rhs : List RowKey) : List RowKey := rhs.filter (fun k => k.stratum.isSome)

/-- The stratified rows whose stratum differs from "unclassified". -/
def mappedRows (rhs : List RowKey) : List RowKey :=
  rhs.filter (fun k =>
    match k.stratum with
    | none => false
    | some s => decide (s ≠ c_unclassified))

theorem reportCounts_aux (rhs : List RowKey) (st : Nat × Nat) :
    rhs.foldl
      (fun st rowhead =>
        match fsplit rowhead with
        | (_, _, none) => st
        | (_, _, some stratum) =>
          (st.1 + (if stratum ≠ c_unclassified then 1 else 0), st.2 + 1)) st
    = (st.1 + (mappedRows rhs).length, st.2 + (stratRows rhs).length) := by
  induction rhs generalizing st with
  | nil => simp [mappedRows, stratRows]
  | cons k rest ih =>
      rcases k with ⟨f, n, s⟩
      cases s with
      | none =>
          rw [List.foldl_cons]
          show rest.foldl _ st = _
          rw [ih st]
          simp [mappedRows, stratRows, List.filter_cons]
      | some s' =>
          rw [List.foldl_cons]
          by_cases hs : s' = c_unclassified
          · show rest.foldl _ (st.1 + (if s' ≠ c_unclassified then 1 else 0), st.2 + 1) = _
            rw [ih]
            simp [mappedRows, stratRows, List.filter_cons, hs]
            omega
          · show rest.foldl _ (st.1 + (if s' ≠ c_unclassified then 1 else 0), st.2 + 1) = _
            rw [ih]
            simp [mappedRows, stratRows, List.filter_cons, hs]
            omega

theorem reportCounts_eq (rhs : List RowKey) :
    reportCounts rhs = ((mappedRows rhs).length, (stratRows rhs).length) := by
  unfold reportCounts
  rw [reportCounts_aux rhs (0, 0)]
  simp

/-- C9: the summary computation divides by zero (modelled as `none`) exactly
when the rewritten table has no stratified row; otherwise it reports
100 times the fraction of stratified rows whose stratum differs from
"unclassified". -/
theorem summary_zero_division (rhs : List RowKey) :
    (summaryPercent rhs = none ↔ (stratRows rhs).length = 0)
    ∧ ((stratRows rhs).length ≠ 0 →
        summaryPercent rhs
          = some (100 * ((mappedRows rhs).length : ℚ) / ((stratRows rhs).length : ℚ))) := by
  constructor
  · unfold summaryPercent
    rw [reportCounts_eq]
    by_cases h : (stratRows rhs).length = 0 <;> simp [h]
  · intro h
    unfold summaryPercent
    rw [reportCounts_eq]
    simp [h]

/-- Witness for C9: one stratified mapped row. -/
theorem summary_zero_division_witness :
    (stratRows [(⟨"U", none, some "g__X"⟩ : RowKey)]).length ≠ 0
    ∧ summaryPercent [(⟨"U", none, some "g__X"⟩ : RowKey)]
        = some (100 * ((mappedRows [(⟨"U", none, some "g__X"⟩ : RowKey)]).length : ℚ)
            / ((stratRows [(⟨"U", none, some "g__X"⟩ : RowKey)]).length : ℚ)) :=
  ⟨by decide, (summary_zero_division [(⟨"U", none, some "g__X"⟩ : RowKey)]).2 (by decide)⟩

/-! ### Structural facts about `tax_connect` -/

theorem tax_connect_feature (k : RowKey) (tm : List (String × String)) :
    (tax_connect k tm).feature = k.feature := by
  rcases k with ⟨f, n, s⟩
  cases s with
  | none => rfl
  | some s' => by_cases h : s' = c_unclassified <;> simp [tax_connect, fsplit, fjoin, h]

theorem tax_connect_name (k : RowKey) (tm : List (String × String)) :
    (tax_connect k tm).name = k.name := by
  rcases k with ⟨f, n, s⟩
  cases s with
  | none => rfl
  | some s' => by_cases h : s' = c_unclassified <;> simp [tax_connect, fsplit, fjoin, h]

theorem tax_connect_stratum_isSome (k : RowKey) (tm : List (String × String)) :
    ∃ s, (tax_connect k tm).stratum = some s := by
  rcases k with ⟨f, n, s⟩
  cases s with
  | none => exact ⟨_, rfl⟩
  | some s' =>
      by_cases h : s' = c_unclassified
      · exact ⟨(dlookup tm f).getD c_unclassified, by simp [tax_connect, fsplit, fjoin, h]⟩
      · exact ⟨(dlookup tm s').getD c_unclassified, by simp [tax_connect, fsplit, fjoin, h]⟩

theorem tax_connect_ne_unstrat {k : RowKey} (tm : List (String × String)) {q : RowKey}
    (hq : q.stratum = none) : tax_connect k tm ≠ q := by
  intro h
  obtain ⟨s, hs⟩ := tax_connect_stratum_isSome k tm
  rw [h, hq] at hs
  exact Option.noConfusion hs

theorem tax_connect_inj_unstrat {k k' : RowKey} (tm : List (String × String))
    (hs : k.stratum = k'.stratum) (h : tax_connect k' tm = tax_connect k tm) : k' = k := by
  have hf := tax_connect_feature k' tm
  have hf2 := tax_connect_feature k tm
  have hn := tax_connect_name k' tm
  have hn2 := tax_connect_name k tm
  rw [h] at hf hn
  rcases k with ⟨f, n, s⟩
  rcases k' with ⟨f', n', s'⟩
  simp only at hf hf2 hn hn2 hs
  simp [hf2 ▸ hf, hn2 ▸ hn, hs]

/-! ### The contribution multimap of the reindexing loop -/

/-- The list of output keys (with multiplicity, in order) that a source row
key contributes to under the given mode (the branch structure of source
lines 195-210). -/
def contribKeys (mode : String) (tm : List (String × String)) (rowhead : RowKey) :
    List RowKey :=
  match fsplit rowhead with
  | (feature, name, stratum) =>
    (if feature = c_unmapped then [rowhead] else [])
    ++ (if stratum = none ∧ mode ≠ c_umode then
          [rowhead] ++ (if mode = c_tmode then [tax_connect rowhead tm] else [])
        else if stratum = some c_unclassified ∧ mode = c_umode then
          [fjoin feature name none, tax_connect rowhead tm]
        else if stratum ≠ none ∧ mode = c_smode then [tax_connect rowhead tm]
        else [])

/-- Appending one index under several keys in sequence. -/
def maddList (d : List (RowKey × List Nat)) (ks : List RowKey) (i : Nat) :
    List (RowKey × List Nat) :=
  ks.foldl (fun d q => madd d q i) d

theorem indexStep_eq_contrib (mode : String) (tm : List (String × String))
    (d : List (RowKey × List Nat)) (p : Nat × RowKey) :
    indexStep mode tm d p = maddList d (contribKeys mode tm p.2) p.1 := by
  rcases p with ⟨i, k⟩
  rcases k with ⟨f, n, s⟩
  show indexStep mode tm d (i, ⟨f, n, s⟩) = _
  unfold indexStep contribKeys maddList fsplit
  by_cases h2 : s = none ∧ mode ≠ c_umode
  · by_cases h3 : mode = c_tmode
    · by_cases h1 : f = c_unmapped <;>
        simp [h1, h2.1, h2.2, h3, List.foldl_append, List.foldl_cons, List.foldl_nil,
          (show ¬c_tmode = c_umode by decide)]
    · by_cases h1 : f = c_unmapped <;>
        simp [h1, h2.1, h2.2, h3, List.foldl_append, List.foldl_cons, List.foldl_nil]
  · by_cases h4 : s = some c_unclassified ∧ mode = c_umode
    · by_cases h1 : f = c_unmapped <;>
        simp [h1, h2, h4.1, h4.2, List.foldl_append, List.foldl_cons, List.foldl_nil,
          (show ¬c_umode = c_smode by decide)]
    · by_cases h5 : s ≠ none ∧ mode = c_smode
      · by_cases h1 : f = c_unmapped <;>
          simp [h1, h2, h4, h5.1, h5.2, List.foldl_append, List.foldl_cons, List.foldl_nil,
            (show ¬c_smode = c_umode by decide)]
      · by_cases h1 : f = c_unmapped <;>
          simp [h1, h2, h4, h5, List.foldl_append, List.foldl_cons, List.foldl_nil]

/-- Combining an optional existing entry with new appended indices: `none`
stays `none` only when nothing is appended. -/
def extendOpt (o : Option (List Nat)) (h : List Nat) : Option (List Nat) :=
  match o with
  | some l => some (l ++ h)
  | none =>
    match h with
    | [] => none
    | _ :: _ => some h

theorem extendOpt_nil (o : Option (List Nat)) : extendOpt o [] = o := by
  cases o <;> simp [extendOpt]

theorem extendOpt_assoc (o : Option (List Nat)) (h1 h2 : List Nat) :
    extendOpt (extendOpt o h1) h2 = extendOpt o (h1 ++ h2) := by
  cases o with
  | some l => simp [extendOpt]
  | none =>
      cases h1 with
      | nil => simp [extendOpt]
      | cons a t => simp [extendOpt]

/-- The indices contributed to key `q` by one enumerated row. -/
def keyHits (q : RowKey) (ks : List RowKey) (i : Nat) : List Nat :=
  ks.filterMap (fun k => if k = q then some i else none)

theorem keyHits_eq_replicate (q : RowKey) (ks : List RowKey) (i : Nat) :
    keyHits q ks i = List.replicate (ks.count q) i := by
  induction ks with
  | nil => rfl
  | cons k rest ih =>
      by_cases h : k = q
      · simp only [keyHits, List.filterMap_cons, h, if_pos rfl, List.count_cons,
          beq_self_eq_true, if_true]
        rw [keyHits] at ih
        rw [ih, List.replicate_succ]
      · have hb : (k == q) = false := beq_eq_false_iff_ne.mpr h
        simp only [keyHits, List.filterMap_cons, h, if_false, List.count_cons, hb]
        rw [keyHits] at ih
        simpa using ih

theorem dlookup_madd_self (d : List (RowKey × List Nat)) (k : RowKey) (i : Nat) :
    dlookup (madd d k i) k = some ((dlookup d k).getD [] ++ [i]) :=
  dlookup_dupdate_self d k _

theorem dlookup_madd_ne (d : List (RowKey × List Nat)) (k : RowKey) (i : Nat) {q : RowKey}
    (hq : q ≠ k) : dlookup (madd d k i) q = dlookup d q :=
  dlookup_dupdate_ne d k _ hq

theorem dlookup_maddList (d : List (RowKey × List Nat)) (ks : List RowKey) (i : Nat)
    (q : RowKey) : dlookup (maddList d ks i) q = extendOpt (dlookup d q) (keyHits q ks i) := by
  induction ks generalizing d with
  | nil => simp [maddList, keyHits, extendOpt_nil]
  | cons k rest ih =>
      show dlookup (maddList (madd d k i) rest i) q = _
      rw [ih]
      by_cases hk : k = q
      · subst hk
        rw [dlookup_madd_self]
        have hkh : keyHits k (k :: rest) i = i :: keyHits k rest i := by
          simp [keyHits, List.filterMap_cons]
        rw [hkh]
        cases h : dlookup d k with
        | none => simp [extendOpt]
        | some l => simp [extendOpt]
      · rw [dlookup_madd_ne d k i (fun h => hk h.symm)]
        have hkh : keyHits q (k :: rest) i = keyHits q rest i := by
          simp [keyHits, List.filterMap_cons, hk]
        rw [hkh]

/-- All indices contributed to key `q` by a list of enumerated rows. -/
def contribIdx (mode : String) (tm : List (String × String)) (q : RowKey) :
    List (Nat × RowKey) → List Nat
  | [] => []
  | p :: rest => keyHits q (contribKeys mode tm p.2) p.1 ++ contribIdx mode tm q rest

theorem dlookup_indexFold (mode : String) (tm : List (String × String)) (q : RowKey)
    (l : List (Nat × RowKey)) (d : List (RowKey × List Nat)) :
    dlookup (l.foldl (indexStep mode tm) d) q
      = extendOpt (dlookup d q) (contribIdx mode tm q l) := by
  induction l generalizing d with
  | nil => simp [contribIdx, extendOpt_nil]
  | cons p rest ih =>
      rw [List.foldl_cons, ih, indexStep_eq_contrib, dlookup_maddList, extendOpt_assoc]
      rfl

/-- The master characterisation of the reindexing pass: the entry of the
index under key `q` is exactly the ordered list of indices of the rows that
contribute to `q`, absent when there are none. -/
theorem dlookup_buildIndex (mode : String) (tm : List (String × String))
    (rowheads : List RowKey) (q : RowKey) :
    dlookup (buildIndex mode tm rowheads) q
      = extendOpt none (contribIdx mode tm q rowheads.enum) := by
  unfold buildIndex
  rw [dlookup_indexFold]
  rfl

theorem contribIdx_nil (mode : String) (tm : List (String × String)) (q : RowKey)
    (rhs : List RowKey) (h : ∀ k ∈ rhs, (contribKeys mode tm k).count q = 0) (n : Nat) :
    contribIdx mode tm q (rhs.enumFrom n) = [] := by
  induction rhs generalizing n with
  | nil => rfl
  | cons k rest ih =>
      show keyHits q (contribKeys mode tm k) n ++ _ = _
      rw [keyHits_eq_replicate, h k (List.mem_cons_self _ _), ih (fun k' hk' => h k' (List.mem_cons_of_mem _ hk')) (n + 1)]
      rfl

theorem contribIdx_single (mode : String) (tm : List (String × String)) (q : RowKey)
    (rhs : List RowKey) (i : Nat) (hi : i < rhs.length)
    (hone : (contribKeys mode tm (rhs.get ⟨i, hi⟩)).count q = 1)
    (hother : ∀ j (hj : j < rhs.length), j ≠ i → (contribKeys mode tm (rhs.get ⟨j, hj⟩)).count q = 0)
    (n : Nat) : contribIdx mode tm q (rhs.enumFrom n) = [n + i] := by
  induction rhs generalizing i n with
  | nil => exact absurd hi (by simp)
  | cons k rest ih =>
      show keyHits q (contribKeys mode tm k) n ++ _ = _
      rw [keyHits_eq_replicate]
      cases i with
      | zero =>
          rw [show (contribKeys mode tm k).count q = 1 from hone]
          have hrest : contribIdx mode tm q (rest.enumFrom (n + 1)) = [] := by
            apply contribIdx_nil
            intro k' hk'
            obtain ⟨j, hjk⟩ := List.mem_iff_get.mp hk'
            have hjl := j.isLt
            have hlt : j.val + 1 < (k :: rest).length := by
              simp only [List.length_cons]
              omega
            have h := hother (j.val + 1) hlt (Nat.succ_ne_zero _)
            rw [List.get_cons_succ] at h
            rw [← hjk]
            exact h
          rw [hrest]
          simp
      | succ i' =>
          have h0ne : (0 : Nat) ≠ i' + 1 := by omega
          have hk : (contribKeys mode tm k).count q = 0 := hother 0 (Nat.succ_pos _) h0ne
          rw [hk, List.replicate_zero, List.nil_append]
          have hi' : i' < rest.length := by
            simp only [List.length_cons] at hi
            omega
          have hone' : (contribKeys mode tm (rest.get ⟨i', hi'⟩)).count q = 1 := by
            have h := hone
            rw [List.get_cons_succ] at h
            exact h
          have hother' : ∀ j (hj : j < rest.length), j ≠ i' →
              (contribKeys mode tm (rest.get ⟨j, hj⟩)).count q = 0 := by
            intro j hj hne
            have hlt : j + 1 < (k :: rest).length := by
              simp only [List.length_cons]
              omega
            have h := hother (j + 1) hlt (by omega)
            rw [List.get_cons_succ] at h
            exact h
          rw [ih i' hi' hone' hother' (n + 1)]
          congr 1
          omega

theorem zipWith_add_replicate_zero (row : List ℚ) (n : Nat) (h : row.length = n) :
    List.zipWith (fun a b => a + b) (List.replicate n (0 : ℚ)) row = row := by
  induction row generalizing n with
  | nil => cases n <;> simp
  | cons a t ih =>
      cases n with
      | zero => simp at h
      | succ m =>
          simp only [List.replicate_succ, List.zipWith_cons_cons, zero_add]
          rw [ih m (by simpa using h)]

theorem sumRows_single (data : List (List ℚ)) (ncols : Nat) (i : Nat)
    (h : (data.getD i []).length = ncols) : sumRows data ncols [i] = data.getD i [] := by
  unfold sumRows
  rw [List.foldl_cons, List.foldl_nil]
  exact zipWith_add_replicate_zero _ _ h

/-! ### Shapes of the contribution list, per mode -/

theorem contribKeys_tmode_unstrat {tm : List (String × String)} {k : RowKey}
    (hs : k.stratum = none) (hf : k.feature ≠ c_unmapped) :
    contribKeys c_tmode tm k = [k, tax_connect k tm] := by
  rcases k with ⟨f, n, s⟩
  simp only at hs hf
  subst hs
  simp [contribKeys, fsplit, hf, (show ¬c_tmode = c_umode by decide)]

theorem contribKeys_umode_uncl {tm : List (String × String)} {k : RowKey}
    (hs : k.stratum = some c_unclassified) (hf : k.feature ≠ c_unmapped) :
    contribKeys c_umode tm k = [fjoin k.feature k.name none, tax_connect k tm] := by
  rcases k with ⟨f, n, s⟩
  simp only at hs hf
  subst hs
  simp [contribKeys, fsplit, hf]

theorem contribKeys_tmode_sub (tm : List (String × String)) (k' : RowKey) {q : RowKey}
    (h : q ∈ contribKeys c_tmode tm k') :
    (q = k' ∧ (k'.feature = c_unmapped ∨ k'.stratum = none))
    ∨ (k'.stratum = none ∧ q = tax_connect k' tm) := by
  rcases k' with ⟨f, n, s⟩
  unfold contribKeys fsplit at h
  simp only [(show ¬c_tmode = c_umode by decide), (show ¬c_tmode = c_smode by decide),
    ne_eq, not_false_eq_true, and_true, and_false, if_false, List.mem_append] at h
  rcases h with h | h
  · by_cases hf : f = c_unmapped
    · rw [if_pos hf] at h
      simp at h
      exact Or.inl ⟨h, Or.inl hf⟩
    · rw [if_neg hf] at h
      simp at h
  · by_cases hs : s = none
    · rw [if_pos hs] at h
      simp at h
      rcases h with h | h
      · exact Or.inl ⟨h, Or.inr hs⟩
      · exact Or.inr ⟨hs, h⟩
    · rw [if_neg hs] at h
      simp at h

theorem contribKeys_umode_sub (tm : List (String × String)) (k' : RowKey) {q : RowKey}
    (h : q ∈ contribKeys c_umode tm k') :
    (q = k' ∧ k'.feature = c_unmapped)
    ∨ (k'.stratum = some c_unclassified
        ∧ (q = fjoin k'.feature k'.name none ∨ q = tax_connect k' tm)) := by
  rcases k' with ⟨f, n, s⟩
  unfold contribKeys fsplit at h
  simp only [(show ¬c_umode = c_smode by decide), ne_eq, not_true, and_false, if_false,
    List.mem_append] at h
  rcases h with h | h
  · by_cases hf : f = c_unmapped
    · rw [if_pos hf] at h
      simp at h
      exact Or.inl ⟨h, hf⟩
    · rw [if_neg hf] at h
      simp at h
  · by_cases hu : s = some c_unclassified
    · rw [if_pos (by simp [hu])] at h
      simp only [List.mem_cons, List.mem_singleton, List.not_mem_nil, or_false] at h
      exact Or.inr ⟨hu, h⟩
    · rw [if_neg (by simp [hu])] at h
      simp at h

theorem contribIdx_mem (mode : String) (tm : List (String × String)) (q : RowKey)
    (l : List (Nat × RowKey)) {j : Nat} (h : j ∈ contribIdx mode tm q l) :
    ∃ p ∈ l, p.1 = j ∧ q ∈ contribKeys mode tm p.2 := by
  induction l with
  | nil => simp [contribIdx] at h
  | cons p rest ih =>
      rw [show contribIdx mode tm q (p :: rest)
          = keyHits q (contribKeys mode tm p.2) p.1 ++ contribIdx mode tm q rest from rfl] at h
      rcases List.mem_append.mp h with h | h
      · rw [keyHits_eq_replicate] at h
        obtain ⟨hc, hj⟩ := List.mem_replicate.mp h
        refine ⟨p, List.mem_cons_self _ _, hj.symm, ?_⟩
        exact List.count_pos_iff.mp (Nat.pos_of_ne_zero hc)
      · obtain ⟨p', hp', hj, hq⟩ := ih h
        exact ⟨p', List.mem_cons_of_mem _ hp', hj, hq⟩

theorem enumFrom_mem_get (rhs : List RowKey) (n : Nat) (p : Nat × RowKey)
    (h : p ∈ rhs.enumFrom n) :
    n ≤ p.1 ∧ ∃ hj : p.1 - n < rhs.length, rhs.get ⟨p.1 - n, hj⟩ = p.2 := by
  induction rhs generalizing n with
  | nil => simp [List.enumFrom] at h
  | cons k rest ih =>
      rw [List.enumFrom_cons] at h
      rcases List.mem_cons.mp h with h | h
      · subst h
        exact ⟨Nat.le_refl _, by simp⟩
      · obtain ⟨hle, hj, hget⟩ := ih (n + 1) h
        refine ⟨by omega, ?_⟩
        have h1 : p.1 - n = (p.1 - (n + 1)) + 1 := by omega
        have h2 : p.1 - n < (k :: rest).length := by
          simp only [List.length_cons]
          omega
        refine ⟨h2, ?_⟩
        have h3 : (k :: rest).get ⟨p.1 - n, h2⟩ = rest.get ⟨p.1 - (n + 1), by omega⟩ := by
          simp only [h1]
          exact List.get_cons_succ
        rw [h3]
        exact hget

/-! ### C2: totals mode on an un-stratified row -/

/-- C2: in totals mode, an un-stratified row (feature not the unmapped
sentinel) of a table with distinct row keys is kept under its own key with
its numeric vector unchanged, and additionally contributes (alone) to the
taxonomy-inferred key produced by `tax_connect`, which differs from the
original key - the inferred row is added alongside, never replacing. -/
theorem totals_mode_unstrat (tm : List (String × String)) (rhs : List RowKey)
    (data : List (List ℚ)) (ncols : Nat) (i : Nat) (k : RowKey)
    (hnd : rhs.Nodup) (hi : i < rhs.length) (hik : rhs.get ⟨i, hi⟩ = k)
    (hs : k.stratum = none) (hf : k.feature ≠ c_unmapped)
    (hd : (data.getD i []).length = ncols) :
    dlookup (buildIndex c_tmode tm rhs) k = some [i]
    ∧ outputVec c_tmode tm rhs data ncols k = some (data.getD i [])
    ∧ tax_connect k tm ≠ k
    ∧ dlookup (buildIndex c_tmode tm rhs) (tax_connect k tm) = some [i]
    ∧ outputVec c_tmode tm rhs data ncols (tax_connect k tm) = some (data.getD i []) := by
  have hnew : tax_connect k tm ≠ k := tax_connect_ne_unstrat tm hs
  have hshape : contribKeys c_tmode tm k = [k, tax_connect k tm] :=
    contribKeys_tmode_unstrat hs hf
  have hother_ne : ∀ j (hj : j < rhs.length), j ≠ i → rhs.get ⟨j, hj⟩ ≠ k := by
    intro j hj hne hc
    exact hne (congrArg Fin.val (hnd.get_inj_iff.mp (hc.trans hik.symm)))
  have hone_k : (contribKeys c_tmode tm (rhs.get ⟨i, hi⟩)).count k = 1 := by
    rw [hik, hshape]
    simp [List.count_cons, List.count_nil, Ne.symm hnew]
  have hzero_k : ∀ j (hj : j < rhs.length), j ≠ i →
      (contribKeys c_tmode tm (rhs.get ⟨j, hj⟩)).count k = 0 := by
    intro j hj hne
    apply List.count_eq_zero.mpr
    intro hmem
    rcases contribKeys_tmode_sub tm _ hmem with ⟨h1, _⟩ | ⟨_, h3⟩
    · exact hother_ne j hj hne h1.symm
    · exact tax_connect_ne_unstrat tm hs h3.symm
  have hone_new : (contribKeys c_tmode tm (rhs.get ⟨i, hi⟩)).count (tax_connect k tm) = 1 := by
    rw [hik, hshape]
    simp [List.count_cons, List.count_nil, hnew]
  have hzero_new : ∀ j (hj : j < rhs.length), j ≠ i →
      (contribKeys c_tmode tm (rhs.get ⟨j, hj⟩)).count (tax_connect k tm) = 0 := by
    intro j hj hne
    apply List.count_eq_zero.mpr
    intro hmem
    rcases contribKeys_tmode_sub tm _ hmem with ⟨h1, h2⟩ | ⟨h2, h3⟩
    · rcases h2 with h2 | h2
      · apply hf
        have hfe : (tax_connect k tm).feature = (rhs.get ⟨j, hj⟩).feature := by rw [h1]
        rw [tax_connect_feature] at hfe
        rw [hfe, h2]
      · obtain ⟨s', hs'⟩ := tax_connect_stratum_isSome k tm
        rw [h1, h2] at hs'
        exact Option.noConfusion hs'
    · have hss : k.stratum = (rhs.get ⟨j, hj⟩).stratum := by rw [hs, h2]
      exact hother_ne j hj hne (tax_connect_inj_unstrat tm hss h3.symm)
  have he : rhs.enum = rhs.enumFrom 0 := rfl
  have hidx_k : dlookup (buildIndex c_tmode tm rhs) k = some [i] := by
    rw [dlookup_buildIndex, he, contribIdx_single c_tmode tm k rhs i hi hone_k hzero_k 0]
    simp [extendOpt]
  have hidx_new : dlookup (buildIndex c_tmode tm rhs) (tax_connect k tm) = some [i] := by
    rw [dlookup_buildIndex, he,
      contribIdx_single c_tmode tm (tax_connect k tm) rhs i hi hone_new hzero_new 0]
    simp [extendOpt]
  refine ⟨hidx_k, ?_, hnew, hidx_new, ?_⟩
  · rw [outputVec, hidx_k, Option.map_some']
    rw [sumRows_single data ncols i hd]
  · rw [outputVec, hidx_new, Option.map_some']
    rw [sumRows_single data ncols i hd]

/-- Witness for C2 at the spec's example shape. -/
theorem totals_mode_unstrat_witness :
    ([(⟨"UniRef50_A", none, none⟩ : RowKey)]).Nodup
    ∧ (dlookup (buildIndex c_tmode [("UniRef50_A", "f__F")] [⟨"UniRef50_A", none, none⟩])
          ⟨"UniRef50_A", none, none⟩ = some [0]
      ∧ outputVec c_tmode [("UniRef50_A", "f__F")] [⟨"UniRef50_A", none, none⟩] [[1, 2]] 2
          ⟨"UniRef50_A", none, none⟩ = some [1, 2]
      ∧ tax_connect ⟨"UniRef50_A", none, none⟩ [("UniRef50_A", "f__F")]
          ≠ ⟨"UniRef50_A", none, none⟩
      ∧ dlookup (buildIndex c_tmode [("UniRef50_A", "f__F")] [⟨"UniRef50_A", none, none⟩])
          (tax_connect ⟨"UniRef50_A", none, none⟩ [("UniRef50_A", "f__F")]) = some [0]
      ∧ outputVec c_tmode [("UniRef50_A", "f__F")] [⟨"UniRef50_A", none, none⟩] [[1, 2]] 2
          (tax_connect ⟨"UniRef50_A", none, none⟩ [("UniRef50_A", "f__F")]) = some [1, 2]) :=
  ⟨by decide,
    totals_mode_unstrat [("UniRef50_A", "f__F")] [⟨"UniRef50_A", none, none⟩] [[1, 2]] 2 0
      ⟨"UniRef50_A", none, none⟩ (by decide) (by decide) rfl rfl (by decide) (by decide)⟩

/-! ### C3: unclassified mode on a row stratified as "unclassified" -/

/-- C3 (amended): in unclassified mode, a row stratified exactly as
"unclassified" whose feature is not the unmapped sentinel, in a table with
distinct row keys, contributes to exactly two output keys - the new
un-stratified total key and the taxonomy-inferred key - and both output rows
carry exactly the original row's numeric vector. -/
theorem umode_unclassified_split (tm : List (String × String)) (rhs : List RowKey)
    (data : List (List ℚ)) (ncols : Nat) (i : Nat) (k : RowKey)
    (hnd : rhs.Nodup) (hi : i < rhs.length) (hik : rhs.get ⟨i, hi⟩ = k)
    (hs : k.stratum = some c_unclassified) (hf : k.feature ≠ c_unmapped)
    (hd : (data.getD i []).length = ncols) :
    fjoin k.feature k.name none ≠ tax_connect k tm
    ∧ dlookup (buildIndex c_umode tm rhs) (fjoin k.feature k.name none) = some [i]
    ∧ dlookup (buildIndex c_umode tm rhs) (tax_connect k tm) = some [i]
    ∧ outputVec c_umode tm rhs data ncols (fjoin k.feature k.name none)
        = some (data.getD i [])
    ∧ outputVec c_umode tm rhs data ncols (tax_connect k tm) = some (data.getD i [])
    ∧ (∀ q : RowKey, ∀ is : List Nat, dlookup (buildIndex c_umode tm rhs) q = some is →
        i ∈ is → q = fjoin k.feature k.name none ∨ q = tax_connect k tm) := by
  have htot : (fjoin k.feature k.name none).stratum = none := rfl
  have hne12 : fjoin k.feature k.name none ≠ tax_connect k tm := fun h =>
    tax_connect_ne_unstrat tm htot h.symm
  have hshape : contribKeys c_umode tm k = [fjoin k.feature k.name none, tax_connect k tm] :=
    contribKeys_umode_uncl hs hf
  have hother_ne : ∀ j (hj : j < rhs.length), j ≠ i → rhs.get ⟨j, hj⟩ ≠ k := by
    intro j hj hne hc
    exact hne (congrArg Fin.val (hnd.get_inj_iff.mp (hc.trans hik.symm)))
  -- counts for the total key
  have hone_t : (contribKeys c_umode tm (rhs.get ⟨i, hi⟩)).count (fjoin k.feature k.name none)
      = 1 := by
    rw [hik, hshape]
    simp [List.count_cons, List.count_nil, Ne.symm hne12]
  have hzero_t : ∀ j (hj : j < rhs.length), j ≠ i →
      (contribKeys c_umode tm (rhs.get ⟨j, hj⟩)).count (fjoin k.feature k.name none) = 0 := by
    intro j hj hne
    apply List.count_eq_zero.mpr
    intro hmem
    rcases contribKeys_umode_sub tm _ hmem with ⟨h1, h2⟩ | ⟨h2, h3 | h3⟩
    · apply hf
      have hfe : (fjoin k.feature k.name none).feature = (rhs.get ⟨j, hj⟩).feature := by rw [h1]
      rw [show (fjoin k.feature k.name none).feature = k.feature from rfl] at hfe
      rw [hfe, h2]
    · -- total key of another "unclassified"-stratified row: forces that row to equal k
      apply hother_ne j hj hne
      have hfe := congrArg RowKey.feature h3
      have hna := congrArg RowKey.name h3
      simp only [fjoin] at hfe hna
      rcases hget : rhs.get ⟨j, hj⟩ with ⟨f', n', s'⟩
      rw [hget] at h2 hfe hna
      rcases hkk : k with ⟨kf, kn, ks⟩
      rw [hkk] at hs hfe hna
      simp only at h2 hfe hna hs
      rw [hfe, hna, h2, ← hs]
    · exact tax_connect_ne_unstrat tm htot h3.symm
  -- counts for the inferred key
  have hone_n : (contribKeys c_umode tm (rhs.get ⟨i, hi⟩)).count (tax_connect k tm) = 1 := by
    rw [hik, hshape]
    simp [List.count_cons, List.count_nil, hne12]
  have hzero_n : ∀ j (hj : j < rhs.length), j ≠ i →
      (contribKeys c_umode tm (rhs.get ⟨j, hj⟩)).count (tax_connect k tm) = 0 := by
    intro j hj hne
    apply List.count_eq_zero.mpr
    intro hmem
    rcases contribKeys_umode_sub tm _ hmem with ⟨h1, h2⟩ | ⟨h2, h3 | h3⟩
    · apply hf
      have hfe : (tax_connect k tm).feature = (rhs.get ⟨j, hj⟩).feature := by rw [h1]
      rw [tax_connect_feature] at hfe
      rw [hfe, h2]
    · obtain ⟨s', hs'⟩ := tax_connect_stratum_isSome k tm
      rw [h3] at hs'
      exact Option.noConfusion hs'
    · have hss : k.stratum = (rhs.get ⟨j, hj⟩).stratum := by rw [hs, h2]
      exact hother_ne j hj hne (tax_connect_inj_unstrat tm hss h3.symm)
  have he : rhs.enum = rhs.enumFrom 0 := rfl
  have hidx_t : dlookup (buildIndex c_umode tm rhs) (fjoin k.feature k.name none)
      = some [i] := by
    rw [dlookup_buildIndex, he,
      contribIdx_single c_umode tm (fjoin k.feature k.name none) rhs i hi hone_t hzero_t 0]
    simp [extendOpt]
  have hidx_n : dlookup (buildIndex c_umode tm rhs) (tax_connect k tm) = some [i] := by
    rw [dlookup_buildIndex, he,
      contribIdx_single c_umode tm (tax_connect k tm) rhs i hi hone_n hzero_n 0]
    simp [extendOpt]
  refine ⟨hne12, hidx_t, hidx_n, ?_, ?_, ?_⟩
  · rw [outputVec, hidx_t, Option.map_some']
    rw [sumRows_single data ncols i hd]
  · rw [outputVec, hidx_n, Option.map_some']
    rw [sumRows_single data ncols i hd]
  · intro q is hq hiq
    rw [dlookup_buildIndex, he] at hq
    have his : i ∈ contribIdx c_umode tm q (rhs.enumFrom 0) := by
      cases hc : contribIdx c_umode tm q (rhs.enumFrom 0) with
      | nil => rw [hc] at hq; exact absurd hq (by simp [extendOpt])
      | cons a t =>
          rw [hc] at hq
          simp only [extendOpt] at hq
          injection hq with hq
          rw [hq]
          exact hiq
    obtain ⟨p, hp, hpi, hpq⟩ := contribIdx_mem c_umode tm q _ his
    obtain ⟨_, hj, hget⟩ := enumFrom_mem_get rhs 0 p hp
    have hgi : rhs.get ⟨p.1 - 0, hj⟩ = rhs.get ⟨i, hi⟩ := by
      congr 1
      simp [hpi]
    rw [hgi, hik] at hget
    rw [← hget, hshape] at hpq
    rcases List.mem_cons.mp hpq with h | h
    · exact Or.inl h
    · rcases List.mem_singleton.mp (by simpa using h) with h2
      exact Or.inr h2

/-- C3 counterexample: with an `UNMAPPED|unclassified` row in unclassified
mode, the inferred key coincides with the original row key, the row's index
is appended twice, and the corresponding output row carries twice the
original values rather than the original values. -/
theorem umode_unclassified_counterexample :
    tax_connect ⟨c_unmapped, none, some c_unclassified⟩ []
      = ⟨c_unmapped, none, some c_unclassified⟩
    ∧ dlookup (buildIndex c_umode [] [(⟨c_unmapped, none, some c_unclassified⟩ : RowKey)])
        (tax_connect ⟨c_unmapped, none, some c_unclassified⟩ []) = some [0, 0]
    ∧ outputVec c_umode [] [(⟨c_unmapped, none, some c_unclassified⟩ : RowKey)] [[1]] 1
        (tax_connect ⟨c_unmapped, none, some c_unclassified⟩ []) = some [2]
    ∧ ¬outputVec c_umode [] [(⟨c_unmapped, none, some c_unclassified⟩ : RowKey)] [[1]] 1
        (tax_connect ⟨c_unmapped, none, some c_unclassified⟩ []) = some [1] := by
  have h2 : dlookup (buildIndex c_umode [] [(⟨c_unmapped, none, some c_unclassified⟩ : RowKey)])
      (tax_connect ⟨c_unmapped, none, some c_unclassified⟩ []) = some [0, 0] := by decide
  have h3 : outputVec c_umode [] [(⟨c_unmapped, none, some c_unclassified⟩ : RowKey)] [[1]] 1
      (tax_connect ⟨c_unmapped, none, some c_unclassified⟩ []) = some [2] := by
    rw [outputVec, h2, Option.map_some']
    congr 1
    simp [sumRows, List.getD]
    norm_num
  refine ⟨by decide, h2, h3, ?_⟩
  rw [h3]
  intro hc
  injection hc with hc
  injection hc with h21 h22
  norm_num at h21

/-- Witness for C3 at the spec's example shape. -/
theorem umode_unclassified_split_witness :
    ([(⟨"UniRef50_B", none, some c_unclassified⟩ : RowKey)]).Nodup
    ∧ (fjoin "UniRef50_B" none none
        ≠ tax_connect ⟨"UniRef50_B", none, some c_unclassified⟩ [("UniRef50_B", "f__FamilyY")]
      ∧ dlookup (buildIndex c_umode [("UniRef50_B", "f__FamilyY")]
            [⟨"UniRef50_B", none, some c_unclassified⟩]) (fjoin "UniRef50_B" none none)
          = some [0]
      ∧ dlookup (buildIndex c_umode [("UniRef50_B", "f__FamilyY")]
            [⟨"UniRef50_B", none, some c_unclassified⟩])
            (tax_connect ⟨"UniRef50_B", none, some c_unclassified⟩ [("UniRef50_B", "f__FamilyY")])
          = some [0]
      ∧ outputVec c_umode [("UniRef50_B", "f__FamilyY")]
            [⟨"UniRef50_B", none, some c_unclassified⟩] [[5]] 1 (fjoin "UniRef50_B" none none)
          = some [5]
      ∧ outputVec c_umode [("UniRef50_B", "f__FamilyY")]
            [⟨"UniRef50_B", none, some c_unclassified⟩] [[5]] 1
            (tax_connect ⟨"UniRef50_B", none, some c_unclassified⟩ [("UniRef50_B", "f__FamilyY")])
          = some [5]
      ∧ (∀ q : RowKey, ∀ is : List Nat,
          dlookup (buildIndex c_umode [("UniRef50_B", "f__FamilyY")]
            [⟨"UniRef50_B", none, some c_unclassified⟩]) q = some is → 0 ∈ is →
          q = fjoin "UniRef50_B" none none
            ∨ q = tax_connect ⟨"UniRef50_B", none, some c_unclassified⟩
                [("UniRef50_B", "f__FamilyY")])) :=
  ⟨by decide,
    umode_unclassified_split [("UniRef50_B", "f__FamilyY")]
      [⟨"UniRef50_B", none, some c_unclassified⟩] [[5]] 1 0
      ⟨"UniRef50_B", none, some c_unclassified⟩ (by decide) (by decide) rfl rfl (by decide)
      (by decide)⟩

/-! ### C1: the unmapped sentinel row -/

/-- C1 (code bug evaluation): in totals mode an un-stratified `UNMAPPED` row
is appended twice under its own key (once by the unmapped branch of source
line 197 and again by the un-stratified branch of source line 200, which is
an `if`, not an `elif`), so its output row carries twice the original
values, and an additional `UNMAPPED|unclassified` row is emitted. -/
theorem unmapped_row_doubled :
    dlookup (buildIndex c_tmode [] [(⟨c_unmapped, none, none⟩ : RowKey)])
        ⟨c_unmapped, none, none⟩ = some [0, 0]
    ∧ outputVec c_tmode [] [(⟨c_unmapped, none, none⟩ : RowKey)] [[1]] 1
        ⟨c_unmapped, none, none⟩ = some [2]
    ∧ ¬outputVec c_tmode [] [(⟨c_unmapped, none, none⟩ : RowKey)] [[1]] 1
        ⟨c_unmapped, none, none⟩ = some [1]
    ∧ dlookup (buildIndex c_tmode [] [(⟨c_unmapped, none, none⟩ : RowKey)])
        ⟨c_unmapped, none, some c_unclassified⟩ = some [0] := by
  have h1 : dlookup (buildIndex c_tmode [] [(⟨c_unmapped, none, none⟩ : RowKey)])
      ⟨c_unmapped, none, none⟩ = some [0, 0] := by decide
  have h2 : outputVec c_tmode [] [(⟨c_unmapped, none, none⟩ : RowKey)] [[1]] 1
      ⟨c_unmapped, none, none⟩ = some [2] := by
    rw [outputVec, h1, Option.map_some']
    congr 1
    simp [sumRows, List.getD]
    norm_num
  refine ⟨h1, h2, ?_, by decide⟩
  rw [h2]
  intro hc
  injection hc with hc
  injection hc with h21 h22
  norm_num at h21

/-! ### The two phases of `build_taxmap` on a well-formed reference file -/

/-- The tree grown from the TOL section's rows (source lines 136-138). -/
def tolOf (rows : List (String × String × String)) : TreeOfLife :=
  rows.foldl (fun t r => t.attach ⟨r.1, r.2.1, some r.2.2⟩) TreeOfLife.init

/-- A well-formed reference file: the TOL marker, the TOL rows, the LCA
marker, then the LCA rows (the layout of section 6 of the spec). -/
def canonFile (tolRows : List (String × String × String))
    (lcaRows : List (String × String)) : List (List String) :=
  [c_tol_header] :: (tolRows.map (fun r => [r.1, r.2.1, r.2.2])
    ++ ([c_lca_header] :: lcaRows.map (fun r => [r.1, r.2])))

/-- The labels stored for UniRef id `u` by the LCA rows, in file order (each
row contributes when its id is `u`, is tracked, and its LCA taxon has a
lineage entry at the target rank). -/
def lcaContribs (tol : TreeOfLife) (target : String) (unirefs : List String) (u : String)
    (rows : List (String × String)) : List String :=
  rows.filterMap (fun r =>
    if r.1 = u ∧ r.1 ∈ unirefs then firstAtRank target (tol.get_lineage r.2) else none)

theorem getLast?_append_cons {α : Type} (xs : List α) (v : α) (ys : List α) :
    (xs ++ v :: ys).getLast? = (v :: ys).getLast? := by
  induction xs with
  | nil => rfl
  | cons a t ih =>
      rw [List.cons_append]
      cases h : t ++ v :: ys with
      | nil => exact absurd h (by simp)
      | cons b l =>
          rw [← h, ← ih]
          rw [h, List.getLast?_cons_cons]

theorem getLast?_toList_append (o : Option String) (ys : List String) :
    ((o.toList ++ ys)).getLast? = match ys with | [] => o | _ :: _ => ys.getLast? := by
  cases o with
  | none =>
      cases ys <;> simp
  | some v =>
      cases ys with
      | nil => simp
      | cons b l => simp [getLast?_append_cons]

theorem mem_of_getLast?_eq {α : Type} {l : List α} {a : α} (h : l.getLast? = some a) :
    a ∈ l := by
  induction l with
  | nil => simp at h
  | cons b t ih =>
      cases t with
      | nil =>
          simp at h
          simp [h]
      | cons c t' =>
          rw [List.getLast?_cons_cons] at h
          exact List.mem_cons_of_mem _ (ih h)

theorem btFold_append (target : String) (us : List String) (st : BTState)
    (l₁ l₂ : List (List String)) :
    btFold target us st (l₁ ++ l₂)
      = match btFold target us st l₁ with
        | some st' => btFold target us st' l₂
        | none => none := by
  induction l₁ generalizing st with
  | nil => rfl
  | cons row rest ih =>
      rw [List.cons_append]
      have hL : btFold target us st (row :: (rest ++ l₂))
          = match btStep target us st row with
            | some st' => btFold target us st' (rest ++ l₂)
            | none => none := rfl
      have hR : btFold target us st (row :: rest)
          = match btStep target us st row with
            | some st' => btFold target us st' rest
            | none => none := rfl
      rw [hL, hR]
      cases btStep target us st row with
      | none => rfl
      | some st' => exact ih st'

theorem btFold_tolRows (target : String) (us : List String) (tol : TreeOfLife)
    (tm : List (String × String)) (lb : Bool) (rows : List (String × String × String))
    (h : ∀ r ∈ rows, r.1 ≠ c_tol_header ∧ r.1 ≠ c_lca_header) :
    btFold target us ⟨tol, tm, true, lb⟩ (rows.map (fun r => [r.1, r.2.1, r.2.2]))
      = some ⟨rows.foldl (fun t r => t.attach ⟨r.1, r.2.1, some r.2.2⟩) tol, tm, true, lb⟩ := by
  induction rows generalizing tol with
  | nil => rfl
  | cons r rest ih =>
      obtain ⟨h1, h2⟩ := h r (List.mem_cons_self _ _)
      have hstep : btStep target us ⟨tol, tm, true, lb⟩ [r.1, r.2.1, r.2.2]
          = some ⟨tol.attach ⟨r.1, r.2.1, some r.2.2⟩, tm, true, lb⟩ := by
        simp [btStep, h1, h2]
      rw [List.map_cons]
      show (match btStep target us ⟨tol, tm, true, lb⟩ [r.1, r.2.1, r.2.2] with
        | some st' => btFold target us st' (rest.map (fun r : String × String × String => [r.1, r.2.1, r.2.2]))
        | none => none) = _
      rw [hstep]
      exact ih _ (fun r' hr' => h r' (List.mem_cons_of_mem _ hr'))

theorem btFold_lcaRows (target : String) (us : List String) (tol : TreeOfLife)
    (tm : List (String × String)) (rows : List (String × String))
    (h : ∀ r ∈ rows, r.1 ≠ c_tol_header ∧ r.1 ≠ c_lca_header) :
    ∃ tm', btFold target us ⟨tol, tm, false, true⟩ (rows.map (fun r => [r.1, r.2]))
        = some ⟨tol, tm', false, true⟩
      ∧ ∀ q, dlookup tm' q
          = ((dlookup tm q).toList ++ lcaContribs tol target us q rows).getLast? := by
  induction rows generalizing tm with
  | nil =>
      refine ⟨tm, rfl, fun q => ?_⟩
      rw [show lcaContribs tol target us q [] = [] from rfl]
      rw [getLast?_toList_append]
  | cons r rest ih =>
      obtain ⟨h1, h2⟩ := h r (List.mem_cons_self _ _)
      have hrest : ∀ r' ∈ rest, r'.1 ≠ c_tol_header ∧ r'.1 ≠ c_lca_header :=
        fun r' hr' => h r' (List.mem_cons_of_mem _ hr')
      have hcontribs : ∀ q, lcaContribs tol target us q (r :: rest)
          = (if r.1 = q ∧ r.1 ∈ us then firstAtRank target (tol.get_lineage r.2) else none).toList
            ++ lcaContribs tol target us q rest := by
        intro q
        unfold lcaContribs
        rw [List.filterMap_cons]
        cases hc : (if r.1 = q ∧ r.1 ∈ us then firstAtRank target (tol.get_lineage r.2)
            else none) with
        | none => simp
        | some v => simp
      by_cases hmem : r.1 ∈ us
      · cases hfirst : firstAtRank target (tol.get_lineage r.2) with
        | some v =>
            have hstep : btStep target us ⟨tol, tm, false, true⟩ [r.1, r.2]
                = some ⟨tol, dset tm r.1 v, false, true⟩ := by
              simp [btStep, h1, h2, hmem, hfirst]
            obtain ⟨tm', hfold, hlook⟩ := ih (dset tm r.1 v) hrest
            refine ⟨tm', ?_, ?_⟩
            · rw [List.map_cons]
              show (match btStep target us ⟨tol, tm, false, true⟩ [r.1, r.2] with
                | some st' => btFold target us st' (rest.map (fun r : String × String => [r.1, r.2]))
                | none => none) = _
              rw [hstep]
              exact hfold
            · intro q
              rw [hlook q, hcontribs q]
              by_cases hq : r.1 = q
              · subst hq
                rw [if_pos ⟨rfl, hmem⟩, hfirst]
                rw [show dlookup (dset tm r.1 v) r.1 = some v from dlookup_dupdate_self tm r.1 _]
                rw [show ((some v).toList : List String) = [v] from rfl]
                rw [show ([v] ++ lcaContribs tol target us r.1 rest
                    : List String) = v :: lcaContribs tol target us r.1 rest from rfl]
                rw [getLast?_append_cons]
              · rw [if_neg (fun hc => hq hc.1)]
                rw [show dlookup (dset tm r.1 v) q = dlookup tm q from
                  dlookup_dupdate_ne tm r.1 _ (fun hcc => hq hcc.symm)]
                simp
        | none =>
            have hstep : btStep target us ⟨tol, tm, false, true⟩ [r.1, r.2]
                = some ⟨tol, tm, false, true⟩ := by
              simp [btStep, h1, h2, hmem, hfirst]
            obtain ⟨tm', hfold, hlook⟩ := ih tm hrest
            refine ⟨tm', ?_, ?_⟩
            · rw [List.map_cons]
              show (match btStep target us ⟨tol, tm, false, true⟩ [r.1, r.2] with
                | some st' => btFold target us st' (rest.map (fun r : String × String => [r.1, r.2]))
                | none => none) = _
              rw [hstep]
              exact hfold
            · intro q
              rw [hlook q, hcontribs q]
              by_cases hq : r.1 = q
              · subst hq
                rw [if_pos ⟨rfl, hmem⟩, hfirst]
                simp
              · rw [if_neg (fun hc => hq hc.1)]
                simp
      · have hstep : btStep target us ⟨tol, tm, false, true⟩ [r.1, r.2]
            = some ⟨tol, tm, false, true⟩ := by
          simp [btStep, h1, h2, hmem]
        obtain ⟨tm', hfold, hlook⟩ := ih tm hrest
        refine ⟨tm', ?_, ?_⟩
        · rw [List.map_cons]
          show (match btStep target us ⟨tol, tm, false, true⟩ [r.1, r.2] with
            | some st' => btFold target us st' (rest.map (fun r : String × String => [r.1, r.2]))
            | none => none) = _
          rw [hstep]
          exact hfold
        · intro q
          rw [hlook q, hcontribs q]
          rw [if_neg (fun hc => hmem hc.2)]
          simp

/-! ### The genus augmentation phase -/

/-- The value `build_taxmap` stores for a genus-bearing stratum token, when
any (source lines 150-158): the genus component itself at target rank Genus,
otherwise the first lineage entry of the stripped genus name at the target
rank. -/
def genusVal (tol : TreeOfLife) (target : String) (stratum : String) : Option String :=
  if target = "Genus" then some (splitHead stratum c_taxon_delim)
  else firstAtRank target (tol.get_lineage (strEraseG (splitHead stratum c_taxon_delim)))

theorem genusStep_eq_none (tol : TreeOfLife) (target : String) (tm : List (String × String))
    {k : RowKey} (hk : k.stratum = none) : genusStep tol target tm k = tm := by
  rcases k with ⟨f, n, s⟩
  simp only at hk
  subst hk
  rfl

theorem genusStep_eq_some (tol : TreeOfLife) (target : String) (tm : List (String × String))
    {k : RowKey} {stratum : String} (hk : k.stratum = some stratum) :
    genusStep tol target tm k
      = if strHasSub stratum "g__" then
          match genusVal tol target stratum with
          | some v => dset tm stratum v
          | none => tm
        else tm := by
  rcases k with ⟨f, n, s⟩
  simp only at hk
  subst hk
  show genusStep tol target tm ⟨f, n, some stratum⟩ = _
  unfold genusStep genusVal fsplit
  by_cases hg : strHasSub stratum "g__" <;>
    by_cases hG : target = "Genus" <;>
      simp [hg, hG]

theorem dlookup_genusFold (tol : TreeOfLife) (target : String)
    (tm : List (String × String)) (fs : List RowKey) (q : String) :
    dlookup (genusFold tol target tm fs) q
      = if (∃ f ∈ fs, f.stratum = some q ∧ strHasSub q "g__" = true)
          ∧ (genusVal tol target q).isSome
        then genusVal tol target q
        else dlookup tm q := by
  induction fs generalizing tm with
  | nil => simp [genusFold]
  | cons f₀ rest ih =>
      show dlookup (genusFold tol target (genusStep tol target tm f₀) rest) q = _
      rw [ih]
      by_cases hA : f₀.stratum = some q ∧ strHasSub q "g__" = true
      · have hcondc : (∃ f ∈ f₀ :: rest, f.stratum = some q ∧ strHasSub q "g__" = true) :=
          ⟨f₀, List.mem_cons_self f₀ rest, hA⟩
        by_cases hV : (genusVal tol target q).isSome
        · obtain ⟨v, hv⟩ := Option.isSome_iff_exists.mp hV
          have hw : dlookup (genusStep tol target tm f₀) q = some v := by
            rw [genusStep_eq_some tol target tm hA.1, if_pos hA.2, hv]
            exact dlookup_dupdate_self tm q _
          have hgoalR : (if (∃ f ∈ f₀ :: rest, f.stratum = some q ∧ strHasSub q "g__" = true)
              ∧ (genusVal tol target q).isSome
              then genusVal tol target q else dlookup tm q) = genusVal tol target q :=
            if_pos ⟨hcondc, hV⟩
          rw [hgoalR]
          by_cases hrest : (∃ f ∈ rest, f.stratum = some q ∧ strHasSub q "g__" = true)
          · rw [if_pos ⟨hrest, hV⟩]
          · rw [if_neg (fun hc => hrest hc.1), hw, hv]
        · have hnone : genusVal tol target q = none := Option.not_isSome_iff_eq_none.mp hV
          have hw : dlookup (genusStep tol target tm f₀) q = dlookup tm q := by
            rw [genusStep_eq_some tol target tm hA.1, if_pos hA.2, hnone]
          have hgoalR : (if (∃ f ∈ f₀ :: rest, f.stratum = some q ∧ strHasSub q "g__" = true)
              ∧ (genusVal tol target q).isSome
              then genusVal tol target q else dlookup tm q) = dlookup tm q :=
            if_neg (fun hc => hV hc.2)
          rw [hgoalR, if_neg (fun hc => hV hc.2), hw]
      · have hw : dlookup (genusStep tol target tm f₀) q = dlookup tm q := by
          rcases hs0 : f₀.stratum with _ | s₀
          · rw [genusStep_eq_none tol target tm hs0]
          · rw [genusStep_eq_some tol target tm hs0]
            by_cases hg : strHasSub s₀ "g__"
            · cases hgv : genusVal tol target s₀ with
              | none => rw [if_pos hg]
              | some v =>
                  have hqs : q ≠ s₀ := by
                    intro hc
                    exact hA ⟨by rw [hs0, hc], by rw [hc]; exact hg⟩
                  rw [if_pos hg]
                  exact dlookup_dupdate_ne tm s₀ _ hqs
            · rw [if_neg hg]
        rw [hw]
        have hiff : ((∃ f ∈ f₀ :: rest, f.stratum = some q ∧ strHasSub q "g__" = true)
            ∧ (genusVal tol target q).isSome)
            ↔ ((∃ f ∈ rest, f.stratum = some q ∧ strHasSub q "g__" = true)
            ∧ (genusVal tol target q).isSome) := by
          constructor
          · rintro ⟨⟨f', hf', hp⟩, hV⟩
            rcases List.mem_cons.mp hf' with h | h
            · exact absurd hp (h ▸ hA)
            · exact ⟨⟨f', h, hp⟩, hV⟩
          · rintro ⟨⟨f', hf', hp⟩, hV⟩
            exact ⟨⟨f', List.mem_cons_of_mem _ hf', hp⟩, hV⟩
        by_cases hc : (∃ f ∈ rest, f.stratum = some q ∧ strHasSub q "g__" = true)
            ∧ (genusVal tol target q).isSome
        · rw [if_pos hc, if_pos (hiff.mpr hc)]
        · rw [if_neg hc, if_neg (fun hx => hc (hiff.mp hx))]

theorem takeBefore_eq_self (d l : List Char) (h : hasSubList d l = false) :
    takeBefore d l = l := by
  induction l with
  | nil => rfl
  | cons c t ih =>
      unfold hasSubList at h
      rw [Bool.or_eq_false_iff] at h
      unfold takeBefore
      rw [if_neg (by rw [h.1]; exact Bool.false_ne_true)]
      rw [ih h.2]

theorem splitHead_eq_self (s d : String) (h : strHasSub s d = false) : splitHead s d = s := by
  unfold splitHead
  unfold strHasSub at h
  rw [takeBefore_eq_self _ _ h]
  cases s
  rfl

/-! ### C5 and C6: the taxonomy map builder -/

/-- C5: over a well-formed reference file, every key of the built map is
either a member of the restricted UniRef id set extracted from the table's
row keys or a genus-bearing stratum token of a table row key (the map never
invents ids); for every id without a genus marker, the stored value is
exactly the last label contributed by the LCA rows for that id - where a row
contributes the `rank_initial__name` rendering of the first (leaf-closest)
lineage entry at the target rank - and ids with no qualifying row remain
absent from the map. -/
theorem build_taxmap_canon (features : List RowKey) (target : String)
    (tolRows : List (String × String × String)) (lcaRows : List (String × String))
    (hTol : ∀ r ∈ tolRows, r.1 ≠ c_tol_header ∧ r.1 ≠ c_lca_header)
    (hLca : ∀ r ∈ lcaRows, r.1 ≠ c_tol_header ∧ r.1 ≠ c_lca_header) :
    ∃ tm, build_taxmap features target (canonFile tolRows lcaRows) = some tm
      ∧ (∀ q, (dlookup tm q).isSome →
          q ∈ unirefsOf features
          ∨ ∃ f ∈ features, f.stratum = some q ∧ strHasSub q "g__" = true)
      ∧ (∀ u, strHasSub u "g__" = false →
          dlookup tm u
            = (lcaContribs (tolOf tolRows) target (unirefsOf features) u lcaRows).getLast?)
      ∧ (∀ u, strHasSub u "g__" = false →
          lcaContribs (tolOf tolRows) target (unirefsOf features) u lcaRows = [] →
          dlookup tm u = none) := by
  obtain ⟨tm₁, hfold1, hlook1⟩ :=
    btFold_lcaRows target (unirefsOf features) (tolOf tolRows) [] lcaRows hLca
  have hstep1 : btStep target (unirefsOf features) ⟨TreeOfLife.init, [], false, false⟩
      [c_tol_header] = some ⟨TreeOfLife.init, [], true, false⟩ := by
    simp [btStep]
  have hstep2 : btStep target (unirefsOf features) ⟨tolOf tolRows, [], true, false⟩
      [c_lca_header] = some ⟨tolOf tolRows, [], false, true⟩ := by
    simp [btStep, (show ¬c_lca_header = c_tol_header by decide)]
  have hrun : btFold target (unirefsOf features) ⟨TreeOfLife.init, [], false, false⟩
      (canonFile tolRows lcaRows) = some ⟨tolOf tolRows, tm₁, false, true⟩ := by
    unfold canonFile
    show (match btStep target (unirefsOf features) ⟨TreeOfLife.init, [], false, false⟩
        [c_tol_header] with
      | some st' => btFold target (unirefsOf features) st'
          (tolRows.map (fun r : String × String × String => [r.1, r.2.1, r.2.2])
            ++ ([c_lca_header] :: lcaRows.map (fun r : String × String => [r.1, r.2])))
      | none => none) = _
    rw [hstep1]
    show btFold target (unirefsOf features) ⟨TreeOfLife.init, [], true, false⟩
        (tolRows.map (fun r : String × String × String => [r.1, r.2.1, r.2.2])
          ++ ([c_lca_header] :: lcaRows.map (fun r : String × String => [r.1, r.2]))) = _
    rw [btFold_append]
    rw [btFold_tolRows target (unirefsOf features) TreeOfLife.init [] false tolRows hTol]
    show (match btStep target (unirefsOf features) ⟨tolOf tolRows, [], true, false⟩
        [c_lca_header] with
      | some st' => btFold target (unirefsOf features) st'
          (lcaRows.map (fun r : String × String => [r.1, r.2]))
      | none => none) = _
    rw [hstep2]
    exact hfold1
  have hval : ∀ u, strHasSub u "g__" = false →
      dlookup (genusFold (tolOf tolRows) target tm₁ features) u
        = (lcaContribs (tolOf tolRows) target (unirefsOf features) u lcaRows).getLast? := by
    intro u hu
    rw [dlookup_genusFold]
    rw [if_neg (fun hc => by
      obtain ⟨⟨f, hf, hfs, hg⟩, _⟩ := hc
      rw [hu] at hg
      exact Bool.false_ne_true hg)]
    rw [hlook1 u]
    rw [show dlookup ([] : List (String × String)) u = none from rfl]
    rw [Option.toList_none, List.nil_append]
  refine ⟨genusFold (tolOf tolRows) target tm₁ features, ?_, ?_, hval, ?_⟩
  · unfold build_taxmap
    rw [hrun]
  · intro q hq
    rw [dlookup_genusFold] at hq
    by_cases hcond : (∃ f ∈ features, f.stratum = some q ∧ strHasSub q "g__" = true)
        ∧ (genusVal (tolOf tolRows) target q).isSome
    · exact Or.inr hcond.1
    · rw [if_neg hcond, hlook1 q] at hq
      rw [show dlookup ([] : List (String × String)) q = none from rfl] at hq
      rw [Option.toList_none, List.nil_append] at hq
      obtain ⟨c, hc⟩ := Option.isSome_iff_exists.mp hq
      have hmemc := mem_of_getLast?_eq hc
      obtain ⟨r, hr, hcr⟩ := List.mem_filterMap.mp hmemc
      by_cases hcnd : r.1 = q ∧ r.1 ∈ unirefsOf features
      · exact Or.inl (hcnd.1 ▸ hcnd.2)
      · rw [if_neg hcnd] at hcr
        exact absurd hcr (by simp)
  · intro u hu hnil
    rw [hval u hu, hnil]
    rfl

/-- Witness for C5 on a small concrete reference file. -/
theorem build_taxmap_canon_witness :
    (∀ r ∈ [("FamilyY", "Family", "Root"), ("GenusZ", "Genus", "FamilyY")],
      r.1 ≠ c_tol_header ∧ r.1 ≠ c_lca_header)
    ∧ (∀ r ∈ [("UniRef50_A", "GenusZ")], r.1 ≠ c_tol_header ∧ r.1 ≠ c_lca_header)
    ∧ (∃ tm, build_taxmap [(⟨"UniRef50_A", none, none⟩ : RowKey)] "Family"
          (canonFile [("FamilyY", "Family", "Root"), ("GenusZ", "Genus", "FamilyY")]
            [("UniRef50_A", "GenusZ")]) = some tm
        ∧ (∀ q, (dlookup tm q).isSome →
            q ∈ unirefsOf [(⟨"UniRef50_A", none, none⟩ : RowKey)]
            ∨ ∃ f ∈ [(⟨"UniRef50_A", none, none⟩ : RowKey)],
                f.stratum = some q ∧ strHasSub q "g__" = true)
        ∧ (∀ u, strHasSub u "g__" = false →
            dlookup tm u
              = (lcaContribs (tolOf [("FamilyY", "Family", "Root"), ("GenusZ", "Genus", "FamilyY")])
                  "Family" (unirefsOf [(⟨"UniRef50_A", none, none⟩ : RowKey)]) u
                  [("UniRef50_A", "GenusZ")]).getLast?)
        ∧ (∀ u, strHasSub u "g__" = false →
            lcaContribs (tolOf [("FamilyY", "Family", "Root"), ("GenusZ", "Genus", "FamilyY")])
                "Family" (unirefsOf [(⟨"UniRef50_A", none, none⟩ : RowKey)]) u
                [("UniRef50_A", "GenusZ")] = [] →
            dlookup tm u = none)) :=
  ⟨by decide, by decide,
    build_taxmap_canon [(⟨"UniRef50_A", none, none⟩ : RowKey)] "Family"
      [("FamilyY", "Family", "Root"), ("GenusZ", "Genus", "FamilyY")]
      [("UniRef50_A", "GenusZ")] (by decide) (by decide)⟩

/-- C6 (amended): at target rank Genus, `build_taxmap` maps every
genus-bearing stratum token of the feature row keys to its leading genus
component (the part of the token before the first taxon delimiter); this is
the token itself exactly when the token carries no further (e.g. species)
part. -/
theorem build_taxmap_genus_component (features : List RowKey) (file : List (List String))
    (tm : List (String × String)) (hbuild : build_taxmap features "Genus" file = some tm)
    (f : RowKey) (s : String) (hf : f ∈ features) (hs : f.stratum = some s)
    (hg : strHasSub s "g__" = true) :
    dlookup tm s = some (splitHead s c_taxon_delim)
    ∧ (strHasSub s c_taxon_delim = false → dlookup tm s = some s) := by
  unfold build_taxmap at hbuild
  cases hrun : btFold "Genus" (unirefsOf features) ⟨TreeOfLife.init, [], false, false⟩ file with
  | none => rw [hrun] at hbuild; exact absurd hbuild (by simp)
  | some st =>
      rw [hrun] at hbuild
      injection hbuild with hbuild
      have hlook : dlookup tm s = some (splitHead s c_taxon_delim) := by
        rw [← hbuild, dlookup_genusFold]
        have hval : genusVal st.tol "Genus" s = some (splitHead s c_taxon_delim) := by
          unfold genusVal
          rw [if_pos rfl]
        rw [if_pos ⟨⟨f, hf, hs, hg⟩, by rw [hval]; rfl⟩, hval]
      refine ⟨hlook, fun hnd => ?_⟩
      rw [hlook, splitHead_eq_self s c_taxon_delim hnd]

/-- C6 counterexample: a two-part stratum token `g__G.s__S` is mapped to its
genus component `g__G`, not to itself. -/
theorem genus_multipart_counterexample :
    build_taxmap [(⟨"X", none, some "g__G.s__S"⟩ : RowKey)] "Genus" []
      = some [("g__G.s__S", "g__G")]
    ∧ ("g__G" : String) ≠ "g__G.s__S" := ⟨by decide, by decide⟩

/-- Witness for C6 on a single-part genus token (the identity case). -/
theorem build_taxmap_genus_component_witness :
    build_taxmap [(⟨"X", none, some "g__G"⟩ : RowKey)] "Genus" [] = some [("g__G", "g__G")]
    ∧ (⟨"X", none, some "g__G"⟩ : RowKey) ∈ [(⟨"X", none, some "g__G"⟩ : RowKey)]
    ∧ strHasSub "g__G" "g__" = true
    ∧ (dlookup [("g__G", "g__G")] "g__G" = some (splitHead "g__G" c_taxon_delim)
      ∧ (strHasSub "g__G" c_taxon_delim = false →
          dlookup [("g__G", "g__G")] "g__G" = some "g__G")) :=
  ⟨by decide, by decide, by decide,
    build_taxmap_genus_component [(⟨"X", none, some "g__G"⟩ : RowKey)] [] [("g__G", "g__G")]
      (by decide) ⟨"X", none, some "g__G"⟩ "g__G" (by decide) rfl (by decide)⟩

/-! ### C4: the lineage walk -/

theorem chain_aux_none (tol : TreeOfLife) (fuel : Nat) : chain_aux tol fuel none = [] := by
  cases fuel <;> rfl

theorem chain_aux_zero (tol : TreeOfLife) (o : Option String) : chain_aux tol 0 o = [] := by
  cases o with
  | none => rfl
  | some n =>
      cases hf : tol.find? n with
      | none => simp only [chain_aux, hf]
      | some node =>
          simp only [chain_aux, hf]
          by_cases hr : n = c_root <;> simp [hr]

theorem chain_aux_succ_nf (tol : TreeOfLife) (fuel : Nat) {n : String}
    (hf : tol.find? n = none) : chain_aux tol (fuel + 1) (some n) = [] := by
  simp only [chain_aux, hf]

theorem chain_aux_succ_root (tol : TreeOfLife) (fuel : Nat) {n : String} {node : Taxon}
    (hf : tol.find? n = some node) (hr : n = c_root) :
    chain_aux tol (fuel + 1) (some n) = [] := by
  simp only [chain_aux, hf]
  simp [hr]

theorem chain_aux_succ_step (tol : TreeOfLife) (fuel : Nat) {n : String} {node : Taxon}
    (hf : tol.find? n = some node) (hr : ¬n = c_root) :
    chain_aux tol (fuel + 1) (some n) = n :: chain_aux tol fuel node.parent_name := by
  simp only [chain_aux, hf]
  simp [hr]

theorem lineage_aux_none_arg (tol : TreeOfLife) (fuel : Nat) :
    lineage_aux tol fuel none = some [] := by
  cases fuel <;> rfl

theorem lineage_aux_nf (tol : TreeOfLife) (fuel : Nat) {n : String}
    (hf : tol.find? n = none) : lineage_aux tol fuel (some n) = some [] := by
  cases fuel <;> simp only [lineage_aux, hf]

theorem lineage_aux_root (tol : TreeOfLife) (fuel : Nat) {n : String} {node : Taxon}
    (hf : tol.find? n = some node) (hr : n = c_root) :
    lineage_aux tol fuel (some n) = some [] := by
  cases fuel <;> simp only [lineage_aux, hf] <;> simp [hr]

theorem lineage_aux_zero_step (tol : TreeOfLife) {n : String} {node : Taxon}
    (hf : tol.find? n = some node) (hr : ¬n = c_root) :
    lineage_aux tol 0 (some n) = none := by
  simp only [lineage_aux, hf]
  simp [hr]

theorem lineage_aux_succ_step (tol : TreeOfLife) (fuel : Nat) {n : String} {node : Taxon}
    (hf : tol.find? n = some node) (hr : ¬n = c_root) :
    lineage_aux tol (fuel + 1) (some n)
      = (lineage_aux tol fuel node.parent_name).map (fun l => (node.rank, node.name) :: l) := by
  simp only [lineage_aux, hf]
  simp [hr]

theorem lineage_none_length (tol : TreeOfLife) : ∀ (fuel : Nat) (o : Option String),
    lineage_aux tol fuel o = none → (chain_aux tol fuel o).length = fuel := by
  intro fuel
  induction fuel with
  | zero =>
      intro o h
      rw [chain_aux_zero]
      rfl
  | succ fuel ih =>
      intro o h
      cases o with
      | none => rw [lineage_aux_none_arg] at h; exact absurd h (by simp)
      | some n =>
          cases hf : tol.find? n with
          | none => rw [lineage_aux_nf tol _ hf] at h; exact absurd h (by simp)
          | some node =>
              by_cases hr : n = c_root
              · rw [lineage_aux_root tol _ hf hr] at h; exact absurd h (by simp)
              · rw [lineage_aux_succ_step tol fuel hf hr] at h
                rw [chain_aux_succ_step tol fuel hf hr]
                have hrec : lineage_aux tol fuel node.parent_name = none := by
                  cases hl : lineage_aux tol fuel node.parent_name with
                  | none => rfl
                  | some l => rw [hl] at h; exact absurd h (by simp)
                rw [List.length_cons, ih _ hrec]

theorem chain_mem_find (tol : TreeOfLife) : ∀ (fuel : Nat) (o : Option String) (x : String),
    x ∈ chain_aux tol fuel o → ∃ node, tol.find? x = some node := by
  intro fuel
  induction fuel with
  | zero =>
      intro o x hx
      rw [chain_aux_zero] at hx
      exact absurd hx (List.not_mem_nil x)
  | succ fuel ih =>
      intro o x hx
      cases o with
      | none => rw [chain_aux_none] at hx; exact absurd hx (List.not_mem_nil x)
      | some n =>
          cases hf : tol.find? n with
          | none => rw [chain_aux_succ_nf tol _ hf] at hx; exact absurd hx (List.not_mem_nil x)
          | some node =>
              by_cases hr : n = c_root
              · rw [chain_aux_succ_root tol _ hf hr] at hx
                exact absurd hx (List.not_mem_nil x)
              · rw [chain_aux_succ_step tol fuel hf hr] at hx
                rcases List.mem_cons.mp hx with hx | hx
                · exact ⟨node, hx ▸ hf⟩
                · exact ih _ x hx

/-- Under the acyclicity hypothesis the walk exits within the fuel bound:
the source `while` loop terminates. -/
theorem lineage_terminates (tol : TreeOfLife) (name : String)
    (hacyc : (chainOf tol name).Nodup) :
    ∃ l, lineage_aux tol tol.fuelBound (some name) = some l := by
  cases hl : lineage_aux tol tol.fuelBound (some name) with
  | some l => exact ⟨l, rfl⟩
  | none =>
      exfalso
      have hlen : (chainOf tol name).length = tol.fuelBound :=
        lineage_none_length tol _ _ hl
      have hsub : ∀ x ∈ chainOf tol name, x ∈ tol.nodes.map Prod.fst := by
        intro x hx
        obtain ⟨node, hnode⟩ := chain_mem_find tol _ _ x hx
        exact List.mem_map_of_mem Prod.fst (dlookup_mem_pair hnode)
      have h1 : (chainOf tol name).toFinset.card = (chainOf tol name).length :=
        List.toFinset_card_of_nodup hacyc
      have h2 : (chainOf tol name).toFinset ⊆ (tol.nodes.map Prod.fst).toFinset := by
        intro x hx
        rw [List.mem_toFinset]
        exact hsub x (List.mem_toFinset.mp hx)
      have h3 := Finset.card_le_card h2
      have h4 : (tol.nodes.map Prod.fst).toFinset.card ≤ (tol.nodes.map Prod.fst).length :=
        List.toFinset_card_le _
      rw [h1, hlen] at h3
      rw [List.length_map] at h4
      unfold TreeOfLife.fuelBound at h3
      omega

theorem filterMap_entry_cons (tol : TreeOfLife) {n : String} {node : Taxon}
    (hf : tol.find? n = some node) (t : List String) :
    (n :: t).filterMap (fun m => (tol.find? m).map (fun nd => (nd.rank, nd.name)))
      = (node.rank, node.name)
          :: t.filterMap (fun m => (tol.find? m).map (fun nd => (nd.rank, nd.name))) := by
  simp [List.filterMap_cons, hf]

theorem lineage_eq_chain_map (tol : TreeOfLife) : ∀ (fuel : Nat) (o : Option String)
    (l : List (String × String)), lineage_aux tol fuel o = some l →
    l = (chain_aux tol fuel o).filterMap
        (fun n => (tol.find? n).map (fun node => (node.rank, node.name))) := by
  intro fuel
  induction fuel with
  | zero =>
      intro o l h
      rw [chain_aux_zero]
      cases o with
      | none =>
          rw [lineage_aux_none_arg] at h
          injection h with h
          rw [← h]
          rfl
      | some n =>
          cases hf : tol.find? n with
          | none =>
              rw [lineage_aux_nf tol _ hf] at h
              injection h with h
              rw [← h]
              rfl
          | some node =>
              by_cases hr : n = c_root
              · rw [lineage_aux_root tol _ hf hr] at h
                injection h with h
                rw [← h]
                rfl
              · rw [lineage_aux_zero_step tol hf hr] at h
                exact absurd h (by simp)
  | succ fuel ih =>
      intro o l h
      cases o with
      | none =>
          rw [lineage_aux_none_arg] at h
          rw [chain_aux_none]
          injection h with h
          rw [← h]
          rfl
      | some n =>
          cases hf : tol.find? n with
          | none =>
              rw [lineage_aux_nf tol _ hf] at h
              rw [chain_aux_succ_nf tol _ hf]
              injection h with h
              rw [← h]
              rfl
          | some node =>
              by_cases hr : n = c_root
              · rw [lineage_aux_root tol _ hf hr] at h
                rw [chain_aux_succ_root tol _ hf hr]
                injection h with h
                rw [← h]
                rfl
              · rw [lineage_aux_succ_step tol fuel hf hr] at h
                rw [chain_aux_succ_step tol fuel hf hr]
                cases hrec : lineage_aux tol fuel node.parent_name with
                | none => rw [hrec] at h; exact absurd h (by simp)
                | some l' =>
                    rw [hrec] at h
                    simp only [Option.map_some'] at h
                    injection h with h
                    rw [filterMap_entry_cons tol hf]
                    rw [← h, ih _ l' hrec]

theorem filterMap_entry_map_snd (tol : TreeOfLife)
    (hwf : ∀ p ∈ tol.nodes, (Prod.snd p).name = p.1) :
    ∀ (c : List String), (∀ x ∈ c, ∃ node, tol.find? x = some node) →
    ((c.filterMap (fun n => (tol.find? n).map (fun node => (node.rank, node.name)))).map
      Prod.snd) = c := by
  intro c
  induction c with
  | nil => intro _; rfl
  | cons x t ih =>
      intro hc
      obtain ⟨node, hnode⟩ := hc x (List.mem_cons_self _ _)
      rw [filterMap_entry_cons tol hnode]
      simp only [List.map_cons]
      have hxname : node.name = x := hwf (x, node) (dlookup_mem_pair hnode)
      rw [hxname, ih (fun y hy => hc y (List.mem_cons_of_mem _ hy))]

theorem chain_head (tol : TreeOfLife) (fuel : Nat) (o : Option String) {m : String}
    (h : (chain_aux tol fuel o).head? = some m) : o = some m := by
  cases fuel with
  | zero => rw [chain_aux_zero] at h; exact absurd h (by simp)
  | succ fuel =>
      cases o with
      | none => rw [chain_aux_none] at h; exact absurd h (by simp)
      | some n =>
          cases hf : tol.find? n with
          | none => rw [chain_aux_succ_nf tol _ hf] at h; exact absurd h (by simp)
          | some node =>
              by_cases hr : n = c_root
              · rw [chain_aux_succ_root tol _ hf hr] at h; exact absurd h (by simp)
              · rw [chain_aux_succ_step tol fuel hf hr] at h
                simp only [List.head?_cons] at h
                injection h with h
                rw [h]

theorem chain_chain (tol : TreeOfLife) : ∀ (fuel : Nat) (o : Option String),
    List.Chain' (fun a b => ∃ node, tol.find? a = some node ∧ node.parent_name = some b)
      (chain_aux tol fuel o) := by
  intro fuel
  induction fuel with
  | zero => intro o; rw [chain_aux_zero]; exact List.chain'_nil
  | succ fuel ih =>
      intro o
      cases o with
      | none => rw [chain_aux_none]; exact List.chain'_nil
      | some n =>
          cases hf : tol.find? n with
          | none => rw [chain_aux_succ_nf tol _ hf]; exact List.chain'_nil
          | some node =>
              by_cases hr : n = c_root
              · rw [chain_aux_succ_root tol _ hf hr]; exact List.chain'_nil
              · rw [chain_aux_succ_step tol fuel hf hr]
                rw [List.chain'_cons']
                refine ⟨?_, ih _⟩
                intro m hm
                exact ⟨node, hf, chain_head tol fuel node.parent_name (Option.mem_def.mp hm)⟩

theorem lineage_stop (tol : TreeOfLife) : ∀ (fuel : Nat) (o : Option String)
    (l : List (String × String)), lineage_aux tol fuel o = some l →
    ∀ lastn, (chain_aux tol fuel o).getLast? = some lastn →
    ∃ node, tol.find? lastn = some node
      ∧ (node.parent_name = none ∨ node.parent_name = some c_root
          ∨ ∃ p, node.parent_name = some p ∧ tol.find? p = none) := by
  intro fuel
  induction fuel with
  | zero =>
      intro o l h lastn hlast
      rw [chain_aux_zero] at hlast
      exact absurd hlast (by simp)
  | succ fuel ih =>
      intro o l h lastn hlast
      cases o with
      | none => rw [chain_aux_none] at hlast; exact absurd hlast (by simp)
      | some n =>
          cases hf : tol.find? n with
          | none => rw [chain_aux_succ_nf tol _ hf] at hlast; exact absurd hlast (by simp)
          | some node =>
              by_cases hr : n = c_root
              · rw [chain_aux_succ_root tol _ hf hr] at hlast
                exact absurd hlast (by simp)
              · rw [chain_aux_succ_step tol fuel hf hr] at hlast
                rw [lineage_aux_succ_step tol fuel hf hr] at h
                have hrec : ∃ l', lineage_aux tol fuel node.parent_name = some l' := by
                  cases hl : lineage_aux tol fuel node.parent_name with
                  | none => rw [hl] at h; exact absurd h (by simp)
                  | some l' => exact ⟨l', rfl⟩
                obtain ⟨l', hl'⟩ := hrec
                cases hcr : chain_aux tol fuel node.parent_name with
                | nil =>
                    rw [hcr] at hlast
                    simp only [List.getLast?_singleton] at hlast
                    injection hlast with hlast
                    refine ⟨node, hlast ▸ hf, ?_⟩
                    cases hp : node.parent_name with
                    | none => exact Or.inl rfl
                    | some p =>
                        rw [hp] at hl' hcr
                        cases hfp : tol.find? p with
                        | none => exact Or.inr (Or.inr ⟨p, rfl, hfp⟩)
                        | some nodep =>
                            by_cases hrp : p = c_root
                            · exact Or.inr (Or.inl (by rw [hrp]))
                            · cases fuel with
                              | zero =>
                                  rw [lineage_aux_zero_step tol hfp hrp] at hl'
                                  exact absurd hl' (by simp)
                              | succ fuel' =>
                                  rw [chain_aux_succ_step tol fuel' hfp hrp] at hcr
                                  exact absurd hcr (by simp)
                | cons c cs =>
                    rw [hcr] at hlast
                    rw [List.getLast?_cons_cons] at hlast
                    exact ih node.parent_name l' hl' lastn (by rw [hcr]; exact hlast)

theorem chain_nil_cases (tol : TreeOfLife) (name : String) :
    chainOf tol name = [] → name = c_root ∨ tol.find? name = none := by
  intro h
  unfold chainOf TreeOfLife.fuelBound at h
  cases hf : tol.find? name with
  | none => exact Or.inr rfl
  | some node =>
      by_cases hr : name = c_root
      · exact Or.inl hr
      · rw [chain_aux_succ_step tol _ hf hr] at h
        exact absurd h (by simp)

/-- The full specification of `get_lineage` on an acyclic chain: the walk
terminates; the returned pairs are the visited nodes' `(rank, name)` in
order; it starts at the given name; it follows parent links; each chain
node appears exactly once; it stops at the first name absent from the tree
or at the root; and the root pair is always the last element. -/
def get_lineage_ok (tol : TreeOfLife) (name : String) : Prop :=
  ∃ l, lineage_aux tol tol.fuelBound (some name) = some l
    ∧ tol.get_lineage name = l ++ [(c_root, c_root)]
    ∧ l = (chainOf tol name).filterMap
        (fun n => (tol.find? n).map (fun node => (node.rank, node.name)))
    ∧ l.map Prod.snd = chainOf tol name
    ∧ (l.map Prod.snd).Nodup
    ∧ (chainOf tol name = [] ∨ (chainOf tol name).head? = some name)
    ∧ (chainOf tol name = [] → name = c_root ∨ tol.find? name = none)
    ∧ List.Chain' (fun a b => ∃ node, tol.find? a = some node ∧ node.parent_name = some b)
        (chainOf tol name)
    ∧ (∀ lastn, (chainOf tol name).getLast? = some lastn →
        ∃ node, tol.find? lastn = some node
          ∧ (node.parent_name = none ∨ node.parent_name = some c_root
              ∨ ∃ p, node.parent_name = some p ∧ tol.find? p = none))
    ∧ (tol.get_lineage name).getLast? = some (c_root, c_root)

/-- C4: for every name whose parent chain is acyclic (no repeated loop
variable within the fuel bound), `get_lineage` satisfies its full
specification `get_lineage_ok`. -/
theorem get_lineage_spec (tol : TreeOfLife) (name : String)
    (hwf : ∀ p ∈ tol.nodes, (Prod.snd p).name = p.1)
    (hacyc : (chainOf tol name).Nodup) : get_lineage_ok tol name := by
  obtain ⟨l, hl⟩ := lineage_terminates tol name hacyc
  have hchar : l = (chainOf tol name).filterMap
      (fun n => (tol.find? n).map (fun node => (node.rank, node.name))) :=
    lineage_eq_chain_map tol _ _ l hl
  have hsnd : l.map Prod.snd = chainOf tol name := by
    rw [hchar]
    exact filterMap_entry_map_snd tol hwf _ (fun x hx => chain_mem_find tol _ _ x hx)
  have hlin : tol.get_lineage name = l ++ [(c_root, c_root)] := by
    unfold TreeOfLife.get_lineage
    rw [hl]
    rfl
  have hhead : chainOf tol name = [] ∨ (chainOf tol name).head? = some name := by
    cases hc : chainOf tol name with
    | nil => exact Or.inl rfl
    | cons a t =>
        right
        have hh : (chainOf tol name).head? = some a := by rw [hc]; rfl
        have ha := chain_head tol tol.fuelBound (some name) hh
        injection ha with ha
        rw [List.head?_cons, ha]
  refine ⟨l, hl, hlin, hchar, hsnd, by rw [hsnd]; exact hacyc, hhead,
    chain_nil_cases tol name, chain_chain tol _ _, lineage_stop tol _ _ l hl,
    by rw [hlin]; exact List.getLast?_concat _⟩

/-- Witness for C4 on a concrete two-node chain. -/
theorem get_lineage_spec_witness :
    (∀ p ∈ (tolOf [("GenusZ", "Genus", "FamilyY"), ("FamilyY", "Family", "Root")]).nodes,
        (Prod.snd p).name = p.1)
    ∧ (chainOf (tolOf [("GenusZ", "Genus", "FamilyY"), ("FamilyY", "Family", "Root")])
        "GenusZ").Nodup
    ∧ get_lineage_ok (tolOf [("GenusZ", "Genus", "FamilyY"), ("FamilyY", "Family", "Root")])
        "GenusZ" :=
  ⟨by decide, by decide,
    get_lineage_spec (tolOf [("GenusZ", "Genus", "FamilyY"), ("FamilyY", "Family", "Root")])
      "GenusZ" (by decide) (by decide)⟩

end InferTax
